import Mathlib

/-!
Verification development for the TensorRT-LLM batch-manager core and
auxiliary runtime components.

Part 1 embeds `WorldConfig` (cpp/tensorrt_llm/runtime, shipped with
`thop/ncclCommunicatorOp.cpp`) and the serialization logic of
`WeightOnlyQuantMatmulPlugin` (plugins/weightOnlyQuantMatmulPlugin).
C++ `SizeType`/`int` values are modelled as unbounded integers (`Int`);
C++ `/` and `%` on signed integers truncate toward zero, which is `Int.tdiv`
and `Int.tmod`.  Serialization buffers are modelled as lists of bytes
(naturals below 256), written little-endian as on the target platform.

Part 2 embeds the in-flight batching manager: block pool, sequence cache
states, cache manager and scheduler.  The batch-manager implementation
itself is not part of the source tree (only its interface documentation
is), so those definitions are modelled from the specification; each such
definition says so in its doc comment.
-/

namespace TrtLlm

/-! ### WorldConfig (from `tensorrt_llm/runtime`, see thop/ncclCommunicatorOp.cpp) -/

/-- `WorldConfig` from the runtime header: tensor parallelism, pipeline
parallelism, rank and GPUs per node, all C++ `SizeType` (int32), modelled
as `Int`. -/
structure WorldConfig where
  mTensorParallelism : Int
  mPipelineParallelism : Int
  mRank : Int
  mGpusPerNode : Int
deriving DecidableEq, Repr

/-- `getSize() = mTensorParallelism * mPipelineParallelism`. -/
def WorldConfig.getSize (c : WorldConfig) : Int :=
  c.mTensorParallelism * c.mPipelineParallelism

/-- `getTensorParallelism()`. -/
def WorldConfig.getTensorParallelism (c : WorldConfig) : Int :=
  c.mTensorParallelism

/-- `getPipelineParallelism()`. -/
def WorldConfig.getPipelineParallelism (c : WorldConfig) : Int :=
  c.mPipelineParallelism

/-- `getRank()`. -/
def WorldConfig.getRank (c : WorldConfig) : Int :=
  c.mRank

/-- `getPipelineParallelRank() = mRank / mTensorParallelism` (C++ truncating
division). -/
def WorldConfig.getPipelineParallelRank (c : WorldConfig) : Int :=
  c.mRank.tdiv c.mTensorParallelism

/-- `getTensorParallelRank() = mRank % mTensorParallelism` (C++ truncating
remainder). -/
def WorldConfig.getTensorParallelRank (c : WorldConfig) : Int :=
  c.mRank.tmod c.mTensorParallelism

/-! ### WeightOnlyQuantMatmulPlugin serialization (from part_000)

The helpers `read`/`write` of the plugin common header `memcpy` a value and
advance the cursor by `sizeof`; on the target platform the relevant types
are 4-byte little-endian (`int`, `nvinfer1::DataType`) and `GemmDims`
(four `int32_t` fields).  Bytes are `Nat` below 256. -/

/-- Little-endian 4-byte encoding of a natural below `2^32`. -/
def enc32 (n : Nat) : List Nat :=
  [n % 256, n / 256 % 256, n / 65536 % 256, n / 16777216 % 256]

/-- Little-endian 4-byte decoding. -/
def dec32 (b0 b1 b2 b3 : Nat) : Nat :=
  b0 + 256 * b1 + 65536 * b2 + 16777216 * b3

/-- Two's-complement 4-byte encoding of a C++ `int` value. -/
def encInt32 (v : Int) : List Nat :=
  enc32 (v % 4294967296).toNat

/-- Two's-complement 4-byte decoding of a C++ `int` value. -/
def decInt32 (b0 b1 b2 b3 : Nat) : Int :=
  let n := dec32 b0 b1 b2 b3
  if n < 2147483648 then (n : Int) else (n : Int) - 4294967296

/-- Consume a 4-byte `int` from a byte buffer (the `read(d, v)` helper). -/
def readInt32 : List Nat → Option (Int × List Nat)
  | b0 :: b1 :: b2 :: b3 :: rest => some (decInt32 b0 b1 b2 b3, rest)
  | _ => none

/-- `nvinfer1::DataType`, a 4-byte enum. -/
inductive NvDataType where
  | kFLOAT
  | kHALF
  | kINT8
  | kINT32
  | kBOOL
  | kUINT8
deriving DecidableEq, Repr

/-- Numeric code of `nvinfer1::DataType` (its underlying int32 value). -/
def NvDataType.code : NvDataType → Nat
  | .kFLOAT => 0
  | .kHALF => 1
  | .kINT8 => 2
  | .kINT32 => 3
  | .kBOOL => 4
  | .kUINT8 => 5

/-- Recover a `DataType` from its numeric code. -/
def NvDataType.ofCode : Nat → Option NvDataType
  | 0 => some .kFLOAT
  | 1 => some .kHALF
  | 2 => some .kINT8
  | 3 => some .kINT32
  | 4 => some .kBOOL
  | 5 => some .kUINT8
  | _ => none

/-- `GemmDims` of the gemm plugin common header: four `int32_t` fields
`minM`, `maxM`, `n`, `k` (the header itself ships with the plugin sources;
its layout is four packed int32 values, 16 bytes). -/
structure GemmDims where
  minM : Int
  maxM : Int
  n : Int
  k : Int
deriving DecidableEq, Repr

/-- `write(d, mDims)`: the 16-byte memcpy image of `GemmDims`. -/
def GemmDims.encode (d : GemmDims) : List Nat :=
  encInt32 d.minM ++ encInt32 d.maxM ++ encInt32 d.n ++ encInt32 d.k

/-- Consume a `GemmDims` (16 bytes) from a byte buffer. -/
def readGemmDims (bytes : List Nat) : Option (GemmDims × List Nat) :=
  match readInt32 bytes with
  | none => none
  | some (minM, r1) =>
    match readInt32 r1 with
    | none => none
    | some (maxM, r2) =>
      match readInt32 r2 with
      | none => none
      | some (n, r3) =>
        match readInt32 r3 with
        | none => none
        | some (k, r4) => some (⟨minM, maxM, n, k⟩, r4)

/-- Modelled from the spec: the gemm plugin profiler's tactics container
(`GemmPluginProfiler::serialize`) is absent from the source tree; it writes
the number of selected tactics followed by the fixed-size tactic entries,
each entry abstracted here as one 4-byte value. -/
structure ProfilerData where
  tactics : List Int
deriving DecidableEq, Repr

/-- Modelled from the spec: `mPluginProfiler->getSerializationSize(mGemmId)`,
a 4-byte count plus 4 bytes per tactic entry. -/
def ProfilerData.serializationSize (p : ProfilerData) : Nat :=
  4 + 4 * p.tactics.length

/-- Modelled from the spec: `mPluginProfiler->serialize(d, mGemmId)`. -/
def ProfilerData.serialize (p : ProfilerData) : List Nat :=
  enc32 p.tactics.length ++ (p.tactics.map encInt32).flatten

/-- Consume `count` 4-byte tactic entries. -/
def readTactics : Nat → List Nat → Option (List Int × List Nat)
  | 0, bytes => some ([], bytes)
  | count + 1, bytes =>
    match readInt32 bytes with
    | none => none
    | some (t, rest) =>
      match readTactics count rest with
      | none => none
      | some (ts, rest') => some (t :: ts, rest')

/-- Modelled from the spec: `mPluginProfiler->deserialize(d, mDims, mGemmId)`
reads the tactic count and then that many entries, advancing the cursor. -/
def readProfiler (bytes : List Nat) : Option (ProfilerData × List Nat) :=
  match bytes with
  | b0 :: b1 :: b2 :: b3 :: rest =>
    match readTactics (dec32 b0 b1 b2 b3) rest with
    | none => none
    | some (ts, rest') => some (⟨ts⟩, rest')
  | _ => none

/-- The serializable state of `WeightOnlyQuantMatmulPlugin`: `mType`,
`mWeightTypeId`, `mDims` and the profiler's tactics. -/
structure WeightOnlyQuantMatmulPlugin where
  mType : NvDataType
  mWeightTypeId : Int
  mDims : GemmDims
  profiler : ProfilerData
deriving DecidableEq, Repr

/-- `getSerializationSize()`: `sizeof(int) + sizeof(nvinfer1::DataType) +
sizeof(mDims) + mPluginProfiler->getSerializationSize(mGemmId)`. -/
def WeightOnlyQuantMatmulPlugin.getSerializationSize
    (p : WeightOnlyQuantMatmulPlugin) : Nat :=
  4 + 4 + 16 + p.profiler.serializationSize

/-- `serialize(buffer)`: writes `mType`, then `mWeightTypeId`, then `mDims`,
then the profiler's tactics. -/
def WeightOnlyQuantMatmulPlugin.serialize (p : WeightOnlyQuantMatmulPlugin) :
    List Nat :=
  enc32 p.mType.code ++ encInt32 p.mWeightTypeId ++ p.mDims.encode
    ++ p.profiler.serialize

/-- `init(type, weightTypeId)` aborts (`TLLM_CHECK(false)`) unless the type
is `kHALF` and the weight type id is 1 (int8) or 2 (int4). -/
def initCheck (type : NvDataType) (weightTypeId : Int) : Bool :=
  decide (type = NvDataType.kHALF ∧ (weightTypeId = 1 ∨ weightTypeId = 2))

/-- The deserializing constructor
`WeightOnlyQuantMatmulPlugin(data, length, profiler)`: reads `mType`,
`mWeightTypeId` and `mDims`, runs `init`, lets the profiler deserialize,
and checks `d == a + length` (the whole declared buffer was consumed).
Returns `none` where the C++ constructor would throw. -/
def deserializePlugin (data : List Nat) (length : Nat) :
    Option WeightOnlyQuantMatmulPlugin :=
  match readInt32 data with
  | none => none
  | some (typeCode, r1) =>
    match NvDataType.ofCode typeCode.toNat with
    | none => none
    | some type =>
      match readInt32 r1 with
      | none => none
      | some (weightTypeId, r2) =>
        match readGemmDims r2 with
        | none => none
        | some (dims, r3) =>
          if initCheck type weightTypeId then
            match readProfiler r3 with
            | none => none
            | some (prof, r4) =>
              if data.length - r4.length = length then
                some ⟨type, weightTypeId, dims, prof⟩
              else
                none
          else
            none

/-! ### The in-flight batching core

Modelled from the spec: the batch-manager implementation
(`cpp/tensorrt_llm/batch_manager`) ships only as a prebuilt library; the
source tree holds its interface documentation alone.  The block pool,
sequence cache states, cache manager and scheduler below follow the
specification's data model (§3) and component design (§4) word by word. -/

/-- Block identifiers index into the fixed pool. -/
abbrev BlockId := Nat

/-- Generated tokens. -/
abbrev Token := Nat

/-- Modelled from the spec: the scheduler policy enum, set at construction,
immutable thereafter. -/
inductive SchedulerPolicy where
  | MAX_UTILIZATION
  | GUARANTEED_NO_EVICT
deriving DecidableEq, Repr

/-- Modelled from the spec: the request state machine phases (§4.3). -/
inductive RequestPhase where
  | QUEUED
  | CONTEXT
  | GENERATION
  | PAUSED
  | COMPLETED
  | CANCELLED
deriving DecidableEq, Repr

/-- Modelled from the spec: a per-request, per-beam sequence cache state —
the ordered block references spanning token 0 to the current length. -/
structure BeamState where
  blocks : List BlockId
  len : Nat
deriving DecidableEq, Repr

/-- Modelled from the spec: the mutable state of one active request. -/
structure ReqState where
  rid : Nat
  beamWidth : Nat
  maxLen : Nat
  beams : List BeamState
  phase : RequestPhase
deriving DecidableEq, Repr

/-- One call of the output-delivery callback (`SendResponseCallback`):
request ID, output tokens, is-final flag and error message. -/
structure Response where
  rid : Nat
  outTokens : List Token
  isFinal : Bool
  errMsg : String
deriving DecidableEq, Repr

/-- Modelled from the spec: the process-wide state owned by the iteration
worker — block pool (total count, free list, per-block payload) plus the
active request set, the fatal-error flag for internal-consistency failures
and the trace of delivered responses. -/
structure ManagerState where
  total : Nat
  cap : Nat
  policy : SchedulerPolicy
  freeList : List BlockId
  contents : List (List Token)
  reqs : List ReqState
  fatal : Bool
  responses : List Response
deriving DecidableEq, Repr

/-- All block references of a list of beams, in order, with multiplicity. -/
def beamsBlocks : List BeamState → List BlockId
  | [] => []
  | bm :: bs => bm.blocks ++ beamsBlocks bs

/-- All block references of one request. -/
def reqBlocks (r : ReqState) : List BlockId :=
  beamsBlocks r.beams

/-- All block references of a list of requests, with multiplicity. -/
def reqsBlocks : List ReqState → List BlockId
  | [] => []
  | r :: rs => reqBlocks r ++ reqsBlocks rs

/-- The blocks currently referenced by any beam of any active request. -/
def usedList (s : ManagerState) : List BlockId :=
  reqsBlocks s.reqs

/-- Modelled from the spec: a block's reference count is the number of
beams currently referencing it. -/
def refCount (s : ManagerState) (b : BlockId) : Nat :=
  (usedList s).count b

/-- The IDs of the currently active requests. -/
def activeIds (s : ManagerState) : List Nat :=
  s.reqs.map (·.rid)

/-- Look up an active request by ID. -/
def getReq? (s : ManagerState) (rid : Nat) : Option ReqState :=
  s.reqs.find? (fun r => r.rid == rid)

/-- Rewrite the (first) request with the given ID in place. -/
def updateReq (rid : Nat) (f : ReqState → ReqState) : List ReqState → List ReqState
  | [] => []
  | r :: rs => if r.rid == rid then f r :: rs else r :: updateReq rid f rs

/-- Drop the (first) request with the given ID. -/
def removeReq (rid : Nat) : List ReqState → List ReqState
  | [] => []
  | r :: rs => if r.rid == rid then rs else r :: removeReq rid rs

/-- Release every block reference of a request (a sequence of length 0
holds zero blocks). -/
def clearBeams (r : ReqState) : ReqState :=
  { r with beams := r.beams.map fun _ => { blocks := [], len := 0 } }

/-- The token payload a list of block references spells out. -/
def blocksTokens (contents : List (List Token)) : List BlockId → List Token
  | [] => []
  | b :: bs => contents.getD b [] ++ blocksTokens contents bs

/-- The already-generated tokens of one beam. -/
def beamTokens (contents : List (List Token)) (bm : BeamState) : List Token :=
  (blocksTokens contents bm.blocks).take bm.len

/-- Beam `bi` of request `rid`, when both exist. -/
def beamAt (s : ManagerState) (rid bi : Nat) : Option BeamState :=
  (getReq? s rid).bind fun r => r.beams[bi]?

/-- The already-generated tokens of beam `bi` of request `rid`. -/
def beamTokensAt (s : ManagerState) (rid bi : Nat) : Option (List Token) :=
  (beamAt s rid bi).map (beamTokens s.contents)

/-- Modelled from the spec: growth always rounds up to block boundaries —
a sequence of `len` tokens needs `ceil(len / cap)` blocks. -/
def blocksNeeded (cap len : Nat) : Nat :=
  (len + cap - 1) / cap

/-- Modelled from the spec: worst-case total block need of a request that
runs to its declared maximum length at its declared beam width. -/
def worstCaseBlocks (cap beamWidth maxLen : Nat) : Nat :=
  beamWidth * blocksNeeded cap maxLen

/-- Modelled from the spec: `canAllocate(request, policy)`.  Under
GUARANTEED_NO_EVICT the worst-case need must fit in the free blocks (no
admitted request may be evicted, §9's binding contract, so nothing can be
reclaimed); under MAX_UTILIZATION one free block for the immediate next
step suffices. -/
def canAllocate (s : ManagerState) (beamWidth maxLen : Nat) : Bool :=
  match s.policy with
  | .GUARANTEED_NO_EVICT =>
    decide (worstCaseBlocks s.cap beamWidth maxLen ≤ s.freeList.length)
  | .MAX_UTILIZATION => decide (1 ≤ s.freeList.length)

/-- Modelled from the spec: admission of a queued request.  An ID matching
a currently active request is rejected with no state change; otherwise the
request enters CONTEXT phase iff `canAllocate` agrees, holding one empty
cache state per beam. -/
def acceptRequest (s : ManagerState) (rid beamWidth maxLen : Nat) : ManagerState :=
  if rid ∈ activeIds s then s
  else if canAllocate s beamWidth maxLen then
    { s with reqs := s.reqs ++
        [{ rid := rid, beamWidth := beamWidth, maxLen := maxLen,
           beams := List.replicate beamWidth { blocks := [], len := 0 },
           phase := RequestPhase.CONTEXT }] }
  else s

/-- Cache-manager failure modes. -/
inductive CacheError where
  | OutOfBlocks
  | NotFound
deriving DecidableEq, Repr

/-- Modelled from the spec: append one token to one beam.  If the last
block still has room and is exclusively referenced, write in place; if it
is shared (reference count > 1), allocate a fresh block and copy forward
(copy-on-divergence); at a block boundary allocate a fresh block.  Fails
with `OutOfBlocks` when the free list cannot supply the fresh block. -/
def appendToken (s : ManagerState) (rid bi : Nat) (t : Token) :
    Except CacheError ManagerState :=
  match s.reqs.find? (fun r => r.rid == rid) with
  | none => .error .NotFound
  | some r =>
    match r.beams[bi]? with
    | none => .error .NotFound
    | some bm =>
      if bm.len < s.cap * bm.blocks.length then
        match bm.blocks.getLast? with
        | none => .error .NotFound
        | some lastB =>
          if refCount s lastB ≤ 1 then
            .ok { s with
              contents := s.contents.set lastB (s.contents.getD lastB [] ++ [t]),
              reqs := updateReq rid
                (fun x => { x with beams := x.beams.set bi { bm with len := bm.len + 1 } })
                s.reqs }
          else
            match s.freeList with
            | [] => .error .OutOfBlocks
            | nb :: rest =>
              .ok { s with
                freeList := rest,
                contents := s.contents.set nb (s.contents.getD lastB [] ++ [t]),
                reqs := updateReq rid
                  (fun x => { x with beams := x.beams.set bi ⟨bm.blocks.dropLast ++ [nb], bm.len + 1⟩ })
                  s.reqs }
      else
        match s.freeList with
        | [] => .error .OutOfBlocks
        | nb :: rest =>
          .ok { s with
            freeList := rest,
            contents := s.contents.set nb [t],
            reqs := updateReq rid
              (fun x => { x with beams := x.beams.set bi ⟨bm.blocks ++ [nb], bm.len + 1⟩ })
              s.reqs }

/-- Modelled from the spec: `growSequence(request, beam, newTokens)` —
allocate as many new blocks as the new positions need, one token at a
time. -/
def growBeam (s : ManagerState) (rid bi : Nat) (toks : List Token) :
    Except CacheError ManagerState :=
  toks.foldlM (fun st t => appendToken st rid bi t) s

/-- Modelled from the spec: release the blocks of the request with the
given ID and rewrite it with `f` (which must leave no block references);
a block returns to the free list only when no other beam references it. -/
def releaseRequest (s : ManagerState) (rid : Nat) (f : ReqState → ReqState) :
    ManagerState :=
  match s.reqs.find? (fun r => r.rid == rid) with
  | none => s
  | some r =>
    let rest := updateReq rid f s.reqs
    let ret := (reqBlocks r).dedup.filter fun b => decide (b ∉ reqsBlocks rest)
    { s with reqs := rest, freeList := ret ++ s.freeList }

/-- Modelled from the spec: `free(request)` — releases all blocks held by
all beams of the request; idempotent. -/
def freeRequest (s : ManagerState) (rid : Nat) : ManagerState :=
  releaseRequest s rid clearBeams

/-- Modelled from the spec: pause a request under memory pressure — it
transitions to PAUSED and its blocks are freed (its output so far stays
with the orchestrator; only latency is affected). -/
def pauseRequest (s : ManagerState) (rid : Nat) : ManagerState :=
  releaseRequest s rid fun r => { clearBeams r with phase := RequestPhase.PAUSED }

/-- Modelled from the spec: tear a request down at a terminal phase —
deliver its final response (is-final = true), free all its blocks and
destroy its state, making the ID reusable. -/
def retireRequest (s : ManagerState) (rid : Nat) (outOf : ReqState → List Token)
    (err : String) : ManagerState :=
  match s.reqs.find? (fun r => r.rid == rid) with
  | none => s
  | some r =>
    let rest := removeReq rid s.reqs
    let ret := (reqBlocks r).dedup.filter fun b => decide (b ∉ reqsBlocks rest)
    { s with reqs := rest, freeList := ret ++ s.freeList,
             responses := s.responses ++ [⟨rid, outOf r, true, err⟩] }

/-- Modelled from the spec: stop-signal processing for one ID — an active
request is cancelled (final response with no further output, blocks
freed); an unknown or already-terminated ID is ignored silently. -/
def cancelRequest (s : ManagerState) (rid : Nat) : ManagerState :=
  retireRequest s rid (fun _ => []) ""

/-- Modelled from the spec: completion — the final response hands off the
generated tokens, then the blocks are freed and the state destroyed. -/
def completeRequest (s : ManagerState) (rid : Nat) : ManagerState :=
  retireRequest s rid
    (fun r => match r.beams.head? with
      | some bm => beamTokens s.contents bm
      | none => []) ""

/-- Modelled from the spec: `branchBeam(request, sourceBeam, destBeam)` —
the destination beam's initial cache state references the source beam's
blocks (incrementing their reference counts), without copying payload. -/
def branchBeam (s : ManagerState) (rid src : Nat) : ManagerState :=
  match s.reqs.find? (fun r => r.rid == rid) with
  | none => s
  | some r =>
    match r.beams[src]? with
    | none => s
    | some bm =>
      { s with reqs := updateReq rid (fun x => { x with beams := x.beams ++ [bm] }) s.reqs }

/-- Modelled from the spec: one scheduler growth step.  On success the
request is in GENERATION phase and its new output is delivered (not
final, no error).  On `OutOfBlocks`: under MAX_UTILIZATION the request is
paused and its blocks freed; under GUARANTEED_NO_EVICT admission reserved
worst-case capacity, so this is a fatal internal-consistency failure,
surfaced as a final response with a non-empty error message. -/
def growStep (s : ManagerState) (rid bi : Nat) (toks : List Token) : ManagerState :=
  match growBeam s rid bi toks with
  | .ok s' =>
    { s' with
      reqs := updateReq rid (fun r => { r with phase := RequestPhase.GENERATION }) s'.reqs,
      responses := s'.responses ++ [⟨rid, toks, false, ""⟩] }
  | .error .NotFound => s
  | .error .OutOfBlocks =>
    match s.policy with
    | .MAX_UTILIZATION => pauseRequest s rid
    | .GUARANTEED_NO_EVICT =>
      { retireRequest s rid (fun _ => []) "OutOfBlocks" with fatal := true }

/-- The operations of the scheduler / cache-manager interface. -/
inductive Op where
  | accept (rid beamWidth maxLen : Nat)
  | grow (rid bi : Nat) (toks : List Token)
  | branch (rid src : Nat)
  | free (rid : Nat)
  | cancel (rid : Nat)
  | complete (rid : Nat)

/-- Modelled from the spec: one iteration action of the single worker; a
fatal internal-consistency failure halts the loop. -/
def step (op : Op) (s : ManagerState) : ManagerState :=
  if s.fatal then s
  else
    match op with
    | .accept rid bw ml => acceptRequest s rid bw ml
    | .grow rid bi toks => growStep s rid bi toks
    | .branch rid src => branchBeam s rid src
    | .free rid => freeRequest s rid
    | .cancel rid => cancelRequest s rid
    | .complete rid => completeRequest s rid

/-- Run a sequence of iteration actions. -/
def run (ops : List Op) (s : ManagerState) : ManagerState :=
  ops.foldl (fun st op => step op st) s

/-- Modelled from the spec: the startup state — the whole pool free, no
active requests. -/
def mkInit (total cap : Nat) (policy : SchedulerPolicy) : ManagerState :=
  { total := total, cap := cap, policy := policy,
    freeList := List.range total, contents := List.replicate total [],
    reqs := [], fatal := false, responses := [] }

/-- Well-formedness of a manager state: free and used blocks live in the
pool, the free list holds no duplicates and no block owned by a beam,
every pool block is free or owned, each beam references a block at most
once, and request IDs are unique (§3). -/
structure WF (s : ManagerState) : Prop where
  free_lt : ∀ b ∈ s.freeList, b < s.total
  used_lt : ∀ b ∈ usedList s, b < s.total
  free_nodup : s.freeList.Nodup
  disj : ∀ b ∈ s.freeList, b ∉ usedList s
  cover : ∀ b, b < s.total → b ∈ s.freeList ∨ b ∈ usedList s
  beam_nodup : ∀ r ∈ s.reqs, ∀ bm ∈ r.beams, bm.blocks.Nodup
  ids_nodup : (activeIds s).Nodup

/-- No active request is in the PAUSED phase. -/
def NoPaused (s : ManagerState) : Prop :=
  ∀ r ∈ s.reqs, r.phase ≠ RequestPhase.PAUSED

/-- Every delivered response with a non-empty error message was final. -/
def ErrImpliesFinal (s : ManagerState) : Prop :=
  ∀ resp ∈ s.responses, resp.errMsg ≠ "" → resp.isFinal = true

/-! ### List helper lemmas -/

theorem getElem?_le_sum {l : List Nat} {i a : Nat} (h : l[i]? = some a) : a ≤ l.sum := by
  induction l generalizing i with
  | nil => simp at h
  | cons x xs ih =>
    match i with
    | 0 =>
      simp only [List.getElem?_cons_zero, Option.some.injEq] at h
      simp [List.sum_cons, ← h, Nat.le_add_right]
    | i + 1 =>
      simp only [List.getElem?_cons_succ] at h
      have := ih h
      simp only [List.sum_cons]
      omega

theorem getD_set_ne {l : List (List Token)} {i j : Nat} {v d : List Token} (h : i ≠ j) :
    (l.set i v).getD j d = l.getD j d := by
  simp [List.getD, List.getElem?_set_ne h]

/-! ### beamsBlocks / reqsBlocks structure -/

theorem beamsBlocks_append (l₁ l₂ : List BeamState) :
    beamsBlocks (l₁ ++ l₂) = beamsBlocks l₁ ++ beamsBlocks l₂ := by
  induction l₁ with
  | nil => simp [beamsBlocks]
  | cons bm bs ih => simp [beamsBlocks, ih]

theorem reqsBlocks_append (l₁ l₂ : List ReqState) :
    reqsBlocks (l₁ ++ l₂) = reqsBlocks l₁ ++ reqsBlocks l₂ := by
  induction l₁ with
  | nil => simp [reqsBlocks]
  | cons r rs ih => simp [reqsBlocks, ih]

theorem mem_beamsBlocks_of {bs : List BeamState} {bm : BeamState} {x : BlockId}
    (hbm : bm ∈ bs) (hx : x ∈ bm.blocks) : x ∈ beamsBlocks bs := by
  induction bs with
  | nil => simp at hbm
  | cons b l ih =>
    rcases List.mem_cons.mp hbm with h | h
    · subst h
      exact List.mem_append.mpr (Or.inl hx)
    · exact List.mem_append.mpr (Or.inr (ih h))

theorem mem_reqsBlocks_of {rs : List ReqState} {r : ReqState} {x : BlockId}
    (hr : r ∈ rs) (hx : x ∈ reqBlocks r) : x ∈ reqsBlocks rs := by
  induction rs with
  | nil => simp at hr
  | cons a l ih =>
    rcases List.mem_cons.mp hr with h | h
    · subst h
      exact List.mem_append.mpr (Or.inl hx)
    · exact List.mem_append.mpr (Or.inr (ih h))

theorem beamsBlocks_replicate_empty (n : Nat) :
    beamsBlocks (List.replicate n ⟨[], 0⟩) = [] := by
  induction n with
  | zero => simp [beamsBlocks]
  | succ k ih => simp [List.replicate, beamsBlocks, ih]

theorem beamsBlocks_map_clear (bs : List BeamState) :
    beamsBlocks (bs.map fun _ => (⟨[], 0⟩ : BeamState)) = [] := by
  induction bs with
  | nil => simp [beamsBlocks]
  | cons bm l ih =>
    simp only [List.map_cons, beamsBlocks]
    simpa using ih

theorem reqBlocks_clearBeams (r : ReqState) : reqBlocks (clearBeams r) = [] := by
  simp only [reqBlocks, clearBeams]
  exact beamsBlocks_map_clear r.beams

/-! ### Counting block references -/

theorem count_beamsBlocks_of_getElem? {bs : List BeamState} {i : Nat} {bm : BeamState}
    (h : bs[i]? = some bm) (x : BlockId) :
    bm.blocks.count x ≤ (beamsBlocks bs).count x := by
  induction bs generalizing i with
  | nil => simp at h
  | cons b l ih =>
    match i with
    | 0 =>
      simp only [List.getElem?_cons_zero, Option.some.injEq] at h
      subst h
      simp [beamsBlocks, List.count_append, Nat.le_add_right]
    | i + 1 =>
      simp only [List.getElem?_cons_succ] at h
      have := ih h
      simp only [beamsBlocks, List.count_append]
      omega

theorem count_beamsBlocks_two {bs : List BeamState} {i j : Nat} {a b : BeamState}
    (hij : i ≠ j) (ha : bs[i]? = some a) (hb : bs[j]? = some b) (x : BlockId) :
    a.blocks.count x + b.blocks.count x ≤ (beamsBlocks bs).count x := by
  induction bs generalizing i j with
  | nil => simp at ha
  | cons c l ih =>
    match i, j with
    | 0, 0 => exact absurd rfl hij
    | 0, j + 1 =>
      simp only [List.getElem?_cons_zero, Option.some.injEq] at ha
      simp only [List.getElem?_cons_succ] at hb
      subst ha
      have := count_beamsBlocks_of_getElem? hb x
      simp only [beamsBlocks, List.count_append]
      omega
    | i + 1, 0 =>
      simp only [List.getElem?_cons_zero, Option.some.injEq] at hb
      simp only [List.getElem?_cons_succ] at ha
      subst hb
      have := count_beamsBlocks_of_getElem? ha x
      simp only [beamsBlocks, List.count_append]
      omega
    | i + 1, j + 1 =>
      simp only [List.getElem?_cons_succ] at ha hb
      have := ih (fun h => hij (congrArg Nat.succ h)) ha hb
      simp only [beamsBlocks, List.count_append]
      omega

theorem count_reqsBlocks_of_mem {rs : List ReqState} {r : ReqState}
    (h : r ∈ rs) (x : BlockId) :
    (reqBlocks r).count x ≤ (reqsBlocks rs).count x := by
  induction rs with
  | nil => simp at h
  | cons a l ih =>
    rcases List.mem_cons.mp h with h' | h'
    · subst h'
      simp [reqsBlocks, List.count_append, Nat.le_add_right]
    · have := ih h'
      simp only [reqsBlocks, List.count_append]
      omega

theorem count_reqsBlocks_two {rs : List ReqState} {r₁ r₂ : ReqState}
    (h₁ : r₁ ∈ rs) (h₂ : r₂ ∈ rs) (hne : r₁ ≠ r₂) (x : BlockId) :
    (reqBlocks r₁).count x + (reqBlocks r₂).count x ≤ (reqsBlocks rs).count x := by
  induction rs with
  | nil => simp at h₁
  | cons a l ih =>
    rcases List.mem_cons.mp h₁ with e₁ | m₁
    · subst e₁
      have m₂ : r₂ ∈ l := by
        rcases List.mem_cons.mp h₂ with e₂ | m₂
        · exact absurd e₂.symm hne
        · exact m₂
      have := count_reqsBlocks_of_mem m₂ x
      simp only [reqsBlocks, List.count_append]
      omega
    · rcases List.mem_cons.mp h₂ with e₂ | m₂
      · subst e₂
        have := count_reqsBlocks_of_mem m₁ x
        simp only [reqsBlocks, List.count_append]
        omega
      · have := ih m₁ m₂
        simp only [reqsBlocks, List.count_append]
        omega

/-! ### updateReq / removeReq / find? -/

theorem find?_rid_eq {l : List ReqState} {rid : Nat} {r : ReqState}
    (h : l.find? (fun x => x.rid == rid) = some r) : r.rid = rid := by
  have := List.find?_some h
  simpa using this

theorem find?_rid_mem {l : List ReqState} {rid : Nat} {r : ReqState}
    (h : l.find? (fun x => x.rid == rid) = some r) : r ∈ l :=
  List.mem_of_find?_eq_some h

theorem find?_eq_none_of_not_mem {l : List ReqState} {rid : Nat}
    (h : rid ∉ l.map (·.rid)) : l.find? (fun x => x.rid == rid) = none := by
  induction l with
  | nil => rfl
  | cons a t ih =>
    simp only [List.map_cons, List.mem_cons] at h
    push_neg at h
    have ha : (a.rid == rid) = false := by
      simp [Ne.symm h.1]
    simp [List.find?, ha, ih h.2]

theorem updateReq_of_not_mem {l : List ReqState} {rid : Nat} {f : ReqState → ReqState}
    (h : rid ∉ l.map (·.rid)) : updateReq rid f l = l := by
  induction l with
  | nil => rfl
  | cons a t ih =>
    simp only [List.map_cons, List.mem_cons] at h
    push_neg at h
    have ha : (a.rid == rid) = false := by simp [Ne.symm h.1]
    simp [updateReq, ha, ih h.2]

theorem mem_updateReq {l : List ReqState} {rid : Nat} {f : ReqState → ReqState} {x : ReqState}
    (h : x ∈ updateReq rid f l) : x ∈ l ∨ ∃ r, r ∈ l ∧ x = f r := by
  induction l with
  | nil => simp [updateReq] at h
  | cons a t ih =>
    simp only [updateReq] at h
    by_cases ha : (a.rid == rid) = true
    · rw [if_pos ha] at h
      rcases List.mem_cons.mp h with e | m
      · exact Or.inr ⟨a, List.mem_cons_self a t, e⟩
      · exact Or.inl (List.mem_cons.mpr (Or.inr m))
    · rw [if_neg ha] at h
      rcases List.mem_cons.mp h with e | m
      · exact Or.inl (List.mem_cons.mpr (Or.inl e))
      · rcases ih m with h' | ⟨r, hr, he⟩
        · exact Or.inl (List.mem_cons.mpr (Or.inr h'))
        · exact Or.inr ⟨r, List.mem_cons.mpr (Or.inr hr), he⟩

theorem map_rid_updateReq {l : List ReqState} {rid : Nat} {f : ReqState → ReqState}
    (hf : ∀ r, (f r).rid = r.rid) :
    (updateReq rid f l).map (·.rid) = l.map (·.rid) := by
  induction l with
  | nil => rfl
  | cons a t ih =>
    simp only [updateReq]
    by_cases ha : (a.rid == rid) = true
    · rw [if_pos ha]
      simp [hf a]
    · rw [if_neg ha]
      simp [ih]

theorem find?_updateReq_self {l : List ReqState} {rid : Nat} {f : ReqState → ReqState}
    {r : ReqState} (hf : ∀ x, (f x).rid = x.rid)
    (h : l.find? (fun x => x.rid == rid) = some r) :
    (updateReq rid f l).find? (fun x => x.rid == rid) = some (f r) := by
  induction l with
  | nil => simp at h
  | cons a t ih =>
    by_cases ha : (a.rid == rid) = true
    · simp only [List.find?, ha] at h
      have har : a = r := by simpa using h
      subst har
      simp only [updateReq, if_pos ha, List.find?]
      have hfr : ((f a).rid == rid) = true := by
        rw [hf a]
        exact ha
      simp [hfr]
    · simp only [List.find?, ha] at h
      simp only [updateReq, if_neg ha, List.find?, ha]
      exact ih h

theorem find?_updateReq_ne {l : List ReqState} {rid rid' : Nat} {f : ReqState → ReqState}
    (hf : ∀ x, (f x).rid = x.rid) (hne : rid ≠ rid') :
    (updateReq rid f l).find? (fun x => x.rid == rid') = l.find? (fun x => x.rid == rid') := by
  induction l with
  | nil => rfl
  | cons a t ih =>
    simp only [updateReq]
    by_cases ha : (a.rid == rid) = true
    · rw [if_pos ha]
      have ha' : (a.rid == rid') = false := by
        have : a.rid = rid := by simpa using ha
        simp [this, hne]
      have hfa' : ((f a).rid == rid') = false := by
        rw [hf a]
        exact ha'
      simp [List.find?, ha', hfa']
    · rw [if_neg ha]
      simp only [List.find?]
      cases hx : (a.rid == rid') with
      | true => rfl
      | false => exact ih

theorem mem_removeReq {l : List ReqState} {rid : Nat} {x : ReqState}
    (h : x ∈ removeReq rid l) : x ∈ l := by
  induction l with
  | nil => simp [removeReq] at h
  | cons a t ih =>
    simp only [removeReq] at h
    by_cases ha : (a.rid == rid) = true
    · rw [if_pos ha] at h
      exact List.mem_cons.mpr (Or.inr h)
    · rw [if_neg ha] at h
      rcases List.mem_cons.mp h with e | m
      · exact List.mem_cons.mpr (Or.inl e)
      · exact List.mem_cons.mpr (Or.inr (ih m))

theorem removeReq_sublist (rid : Nat) (l : List ReqState) :
    (removeReq rid l).Sublist l := by
  induction l with
  | nil => simp [removeReq]
  | cons a t ih =>
    simp only [removeReq]
    by_cases ha : (a.rid == rid) = true
    · rw [if_pos ha]
      exact List.sublist_cons_of_sublist a (List.Sublist.refl t)
    · rw [if_neg ha]
      exact List.Sublist.cons₂ a ih

theorem not_mem_rid_removeReq {l : List ReqState} {rid : Nat}
    (h : (l.map (·.rid)).Nodup) : rid ∉ (removeReq rid l).map (·.rid) := by
  induction l with
  | nil => simp [removeReq]
  | cons a t ih =>
    simp only [List.map_cons, List.nodup_cons] at h
    simp only [removeReq]
    by_cases ha : (a.rid == rid) = true
    · rw [if_pos ha]
      have : a.rid = rid := by simpa using ha
      rw [← this]
      exact h.1
    · rw [if_neg ha]
      simp only [List.map_cons, List.mem_cons]
      push_neg
      refine ⟨?_, ih h.2⟩
      intro he
      exact absurd (by simp [he] : (a.rid == rid) = true) ha

theorem rid_eq_of_removed {l : List ReqState} {rid x : Nat}
    (hx : x ∈ l.map (·.rid)) (hx' : x ∉ (removeReq rid l).map (·.rid)) : x = rid := by
  induction l with
  | nil => simp at hx
  | cons a t ih =>
    simp only [List.map_cons, List.mem_cons] at hx
    simp only [removeReq] at hx'
    by_cases ha : (a.rid == rid) = true
    · rw [if_pos ha] at hx'
      rcases hx with e | m
      · have : a.rid = rid := by simpa using ha
        omega
      · exact absurd m hx'
    · rw [if_neg ha] at hx'
      simp only [List.map_cons, List.mem_cons] at hx'
      push_neg at hx'
      rcases hx with e | m
      · exact absurd e hx'.1
      · exact ih m hx'.2

theorem updateReq_updateReq {l : List ReqState} {rid : Nat} {f g : ReqState → ReqState}
    (hg : ∀ r, (g r).rid = r.rid) :
    updateReq rid f (updateReq rid g l) = updateReq rid (fun r => f (g r)) l := by
  induction l with
  | nil => rfl
  | cons a t ih =>
    simp only [updateReq]
    by_cases ha : (a.rid == rid) = true
    · rw [if_pos ha]
      have hgb : ((g a).rid == rid) = true := by
        rw [hg a]
        exact ha
      have he : a.rid = rid := by simpa using ha
      simp [updateReq, hgb, he]
    · rw [if_neg ha]
      simp [updateReq, ha, ih]

/-! ### Decomposition of the used-block list under updates -/

theorem updateReq_decomp {l : List ReqState} {rid : Nat} {r : ReqState}
    (h : l.find? (fun x => x.rid == rid) = some r) (f : ReqState → ReqState) :
    ∃ u v, reqsBlocks l = u ++ (reqBlocks r ++ v) ∧
      reqsBlocks (updateReq rid f l) = u ++ (reqBlocks (f r) ++ v) := by
  induction l with
  | nil => simp at h
  | cons a t ih =>
    by_cases ha : (a.rid == rid) = true
    · simp only [List.find?, ha] at h
      have har : a = r := by simpa using h
      subst har
      refine ⟨[], reqsBlocks t, by simp [reqsBlocks], ?_⟩
      simp [updateReq, ha, reqsBlocks]
    · simp only [List.find?, ha] at h
      rcases ih h with ⟨u, v, h₁, h₂⟩
      refine ⟨reqBlocks a ++ u, v, ?_, ?_⟩
      · simp [reqsBlocks, h₁]
      · simp [updateReq, ha, reqsBlocks, h₂]

theorem removeReq_decomp {l : List ReqState} {rid : Nat} {r : ReqState}
    (h : l.find? (fun x => x.rid == rid) = some r) :
    ∃ u v, reqsBlocks l = u ++ (reqBlocks r ++ v) ∧
      reqsBlocks (removeReq rid l) = u ++ v := by
  induction l with
  | nil => simp at h
  | cons a t ih =>
    by_cases ha : (a.rid == rid) = true
    · simp only [List.find?, ha] at h
      have har : a = r := by simpa using h
      subst har
      exact ⟨[], reqsBlocks t, by simp [reqsBlocks], by simp [removeReq, ha]⟩
    · simp only [List.find?, ha] at h
      rcases ih h with ⟨u, v, h₁, h₂⟩
      refine ⟨reqBlocks a ++ u, v, ?_, ?_⟩
      · simp [reqsBlocks, h₁]
      · simp [removeReq, ha, reqsBlocks, h₂]

theorem set_decomp {bs : List BeamState} {bi : Nat} {bm : BeamState}
    (h : bs[bi]? = some bm) (bm' : BeamState) :
    ∃ u v, beamsBlocks bs = u ++ (bm.blocks ++ v) ∧
      beamsBlocks (bs.set bi bm') = u ++ (bm'.blocks ++ v) := by
  induction bs generalizing bi with
  | nil => simp at h
  | cons a t ih =>
    match bi with
    | 0 =>
      simp only [List.getElem?_cons_zero, Option.some.injEq] at h
      subst h
      exact ⟨[], beamsBlocks t, by simp [beamsBlocks], by simp [List.set, beamsBlocks]⟩
    | bi + 1 =>
      simp only [List.getElem?_cons_succ] at h
      rcases ih h with ⟨u, v, h₁, h₂⟩
      refine ⟨a.blocks ++ u, v, ?_, ?_⟩
      · simp [beamsBlocks, h₁]
      · simp [List.set, beamsBlocks, h₂]

theorem getLast?_decomp {l : List BlockId} {a : BlockId} (h : l.getLast? = some a) :
    l.dropLast ++ [a] = l ∧ a ∈ l := by
  rcases List.mem_getLast?_eq_getLast (show a ∈ l.getLast? by rw [h]; rfl) with ⟨h', he⟩
  subst he
  exact ⟨List.dropLast_append_getLast h', List.getLast_mem h'⟩

theorem ids_nodup_updateReq {l : List ReqState} {rid : Nat} {f : ReqState → ReqState}
    (hf : ∀ r, (f r).rid = r.rid) (h : (l.map (·.rid)).Nodup) :
    ((updateReq rid f l).map (·.rid)).Nodup := by
  rw [map_rid_updateReq hf]
  exact h

/-! ### Preservation by appendToken -/

theorem appendToken_ok {s s' : ManagerState} {rid bi : Nat} {t : Token}
    (he : appendToken s rid bi t = Except.ok s') :
    s'.total = s.total ∧ s'.cap = s.cap ∧ s'.policy = s.policy ∧ s'.fatal = s.fatal ∧
    s'.responses = s.responses ∧ activeIds s' = activeIds s ∧
    (∀ r' ∈ s'.reqs, ∃ r₀ ∈ s.reqs, r'.phase = r₀.phase) ∧
    (WF s → WF s') := by
  unfold appendToken at he
  cases hfind : s.reqs.find? (fun r => r.rid == rid) with
  | none =>
    rw [hfind] at he
    dsimp only at he
    exact absurd he (by simp)
  | some r =>
    rw [hfind] at he
    dsimp only at he
    have hrmem : r ∈ s.reqs := find?_rid_mem hfind
    cases hbm : r.beams[bi]? with
    | none =>
      rw [hbm] at he
      dsimp only at he
      exact absurd he (by simp)
    | some bm =>
      rw [hbm] at he
      dsimp only at he
      have hbmem : bm ∈ r.beams := List.getElem?_mem hbm
      by_cases hroom : bm.len < s.cap * bm.blocks.length
      · rw [if_pos hroom] at he
        cases hlast : bm.blocks.getLast? with
        | none =>
          rw [hlast] at he
          dsimp only at he
          exact absurd he (by simp)
        | some lastB =>
          rw [hlast] at he
          dsimp only at he
          obtain ⟨hdrop, hlmem⟩ := getLast?_decomp hlast
          by_cases hrc : refCount s lastB ≤ 1
          · -- write in place: the block lists do not change at all
            rw [if_pos hrc] at he
            simp only [Except.ok.injEq] at he
            subst he
            obtain ⟨u, v, hu1, hu2⟩ := updateReq_decomp hfind
              (fun x => { x with beams := x.beams.set bi { bm with len := bm.len + 1 } })
            obtain ⟨u', v', hb1, hb2⟩ := set_decomp hbm ({ bm with len := bm.len + 1 })
            have husame :
                reqsBlocks (updateReq rid
                  (fun x => { x with beams := x.beams.set bi { bm with len := bm.len + 1 } })
                  s.reqs) = reqsBlocks s.reqs := by
              rw [hu2, hu1]
              simp only [reqBlocks] at *
              rw [hb2, hb1]
            refine ⟨rfl, rfl, rfl, rfl, rfl, ?_, ?_, ?_⟩
            · simp only [activeIds]
              exact map_rid_updateReq (fun _ => rfl)
            · intro r' hr'
              rcases mem_updateReq hr' with h | ⟨r₀, hr₀, he'⟩
              · exact ⟨r', h, rfl⟩
              · exact ⟨r₀, hr₀, by rw [he']⟩
            · intro hwf
              refine ⟨hwf.free_lt, ?_, hwf.free_nodup, ?_, ?_, ?_, ?_⟩
              · show ∀ b ∈ reqsBlocks _, b < s.total
                rw [husame]
                exact hwf.used_lt
              · show ∀ b ∈ s.freeList, b ∉ reqsBlocks _
                rw [husame]
                exact hwf.disj
              · show ∀ b, b < s.total → b ∈ s.freeList ∨ b ∈ reqsBlocks _
                rw [husame]
                exact hwf.cover
              · intro r' hr' bm' hbm'
                rcases mem_updateReq hr' with h | ⟨r₀, hr₀, he'⟩
                · exact hwf.beam_nodup r' h bm' hbm'
                · subst he'
                  simp only at hbm'
                  rcases List.mem_or_eq_of_mem_set hbm' with h | h
                  · exact hwf.beam_nodup r₀ hr₀ bm' h
                  · subst h
                    exact hwf.beam_nodup r hrmem bm hbmem
              · exact ids_nodup_updateReq (fun _ => rfl) hwf.ids_nodup
          · -- copy-on-divergence: drop the shared last block, take a fresh one
            rw [if_neg hrc] at he
            cases hfree : s.freeList with
            | nil =>
              rw [hfree] at he
              dsimp only at he
              exact absurd he (by simp)
            | cons nb rest =>
              rw [hfree] at he
              dsimp only at he
              simp only [Except.ok.injEq] at he
              subst he
              obtain ⟨u, v, hu1, hu2⟩ := updateReq_decomp hfind
                (fun x => { x with beams := x.beams.set bi ⟨bm.blocks.dropLast ++ [nb], bm.len + 1⟩ })
              obtain ⟨u', v', hb1, hb2⟩ := set_decomp hbm
                (⟨bm.blocks.dropLast ++ [nb], bm.len + 1⟩ : BeamState)
              have hb1' : reqBlocks r = u' ++ (bm.blocks ++ v') := by
                simpa [reqBlocks] using hb1
              have hmem_s : ∀ x, x ∈ usedList s ↔
                  x ∈ u ∨ x ∈ u' ∨ x ∈ bm.blocks ∨ x ∈ v' ∨ x ∈ v := by
                intro x
                simp only [usedList]
                rw [hu1, hb1']
                simp only [List.mem_append]
                tauto
              have hmem_X : ∀ x,
                  (x ∈ reqsBlocks (updateReq rid
                    (fun y => { y with beams := y.beams.set bi ⟨bm.blocks.dropLast ++ [nb], bm.len + 1⟩ })
                    s.reqs)) ↔
                  x ∈ u ∨ x ∈ u' ∨ x ∈ bm.blocks.dropLast ∨ x = nb ∨ x ∈ v' ∨ x ∈ v := by
                intro x
                rw [hu2]
                have hb2' : reqBlocks
                    ({ r with beams := r.beams.set bi ⟨bm.blocks.dropLast ++ [nb], bm.len + 1⟩ })
                    = u' ++ ((bm.blocks.dropLast ++ [nb]) ++ v') := by
                  simpa [reqBlocks] using hb2
                rw [hb2']
                simp only [List.mem_append, List.mem_singleton]
                tauto
              have hnbfree : nb ∈ s.freeList := by
                rw [hfree]
                exact List.mem_cons_self nb rest
              have hdropsub : ∀ x ∈ bm.blocks.dropLast, x ∈ bm.blocks :=
                fun x hx => (List.dropLast_sublist bm.blocks).subset hx
              have hblocksplit : ∀ x ∈ bm.blocks, x ∈ bm.blocks.dropLast ∨ x = lastB := by
                intro x hx
                rw [← hdrop] at hx
                simpa [List.mem_append] using hx
              refine ⟨rfl, rfl, rfl, rfl, rfl, ?_, ?_, ?_⟩
              · simp only [activeIds]
                exact map_rid_updateReq (fun _ => rfl)
              · intro r' hr'
                rcases mem_updateReq hr' with h | ⟨r₀, hr₀, he'⟩
                · exact ⟨r', h, rfl⟩
                · exact ⟨r₀, hr₀, by rw [he']⟩
              · intro hwf
                have hnbtot : nb < s.total := hwf.free_lt nb hnbfree
                have hnbused : nb ∉ usedList s := hwf.disj nb hnbfree
                have hfreend : (nb :: rest).Nodup := by
                  rw [← hfree]
                  exact hwf.free_nodup
                obtain ⟨hnbrest, hrestnd⟩ := List.nodup_cons.mp hfreend
                refine ⟨?_, ?_, hrestnd, ?_, ?_, ?_, ?_⟩
                · intro b hb
                  exact hwf.free_lt b (by rw [hfree]; exact List.mem_cons_of_mem nb hb)
                · intro b hb
                  rcases (hmem_X b).mp hb with h | h | h | h | h | h
                  · exact hwf.used_lt b ((hmem_s b).mpr (Or.inl h))
                  · exact hwf.used_lt b ((hmem_s b).mpr (Or.inr (Or.inl h)))
                  · exact hwf.used_lt b ((hmem_s b).mpr (Or.inr (Or.inr (Or.inl (hdropsub b h)))))
                  · subst h
                    exact hnbtot
                  · exact hwf.used_lt b ((hmem_s b).mpr (Or.inr (Or.inr (Or.inr (Or.inl h)))))
                  · exact hwf.used_lt b ((hmem_s b).mpr (Or.inr (Or.inr (Or.inr (Or.inr h)))))
                · intro b hb hbin
                  have hbused : b ∉ usedList s :=
                    hwf.disj b (by rw [hfree]; exact List.mem_cons_of_mem nb hb)
                  rcases (hmem_X b).mp hbin with h | h | h | h | h | h
                  · exact hbused ((hmem_s b).mpr (Or.inl h))
                  · exact hbused ((hmem_s b).mpr (Or.inr (Or.inl h)))
                  · exact hbused ((hmem_s b).mpr (Or.inr (Or.inr (Or.inl (hdropsub b h)))))
                  · subst h
                    exact hnbrest hb
                  · exact hbused ((hmem_s b).mpr (Or.inr (Or.inr (Or.inr (Or.inl h)))))
                  · exact hbused ((hmem_s b).mpr (Or.inr (Or.inr (Or.inr (Or.inr h)))))
                · intro b hbtot
                  rcases hwf.cover b hbtot with h | h
                  · rw [hfree] at h
                    rcases List.mem_cons.mp h with h | h
                    · subst h
                      exact Or.inr ((hmem_X b).mpr (Or.inr (Or.inr (Or.inr (Or.inl rfl)))))
                    · exact Or.inl h
                  · rcases (hmem_s b).mp h with h | h | h | h | h
                    · exact Or.inr ((hmem_X b).mpr (Or.inl h))
                    · exact Or.inr ((hmem_X b).mpr (Or.inr (Or.inl h)))
                    · rcases hblocksplit b h with h | h
                      · exact Or.inr ((hmem_X b).mpr (Or.inr (Or.inr (Or.inl h))))
                      · -- b is the shared last block: another beam still references it
                        subst h
                        have h2 : 2 ≤ (usedList s).count b := by
                          have := Nat.not_le.mp hrc
                          simpa [refCount] using this
                        have hone : bm.blocks.count b = 1 :=
                          List.count_eq_one_of_mem (hwf.beam_nodup r hrmem bm hbmem) hlmem
                        have hsplit : (usedList s).count b =
                            u.count b + u'.count b + bm.blocks.count b
                              + v'.count b + v.count b := by
                          simp only [usedList]
                          rw [hu1, hb1']
                          simp only [List.count_append]
                          omega
                        have hpos : 0 < u.count b ∨ 0 < u'.count b ∨
                            0 < v'.count b ∨ 0 < v.count b := by
                          omega
                        rcases hpos with h | h | h | h
                        · exact Or.inr ((hmem_X b).mpr (Or.inl (List.count_pos_iff.mp h)))
                        · exact Or.inr ((hmem_X b).mpr (Or.inr (Or.inl (List.count_pos_iff.mp h))))
                        · exact Or.inr ((hmem_X b).mpr
                            (Or.inr (Or.inr (Or.inr (Or.inr (Or.inl (List.count_pos_iff.mp h)))))))
                        · exact Or.inr ((hmem_X b).mpr
                            (Or.inr (Or.inr (Or.inr (Or.inr (Or.inr (List.count_pos_iff.mp h)))))))
                    · exact Or.inr ((hmem_X b).mpr (Or.inr (Or.inr (Or.inr (Or.inr (Or.inl h))))))
                    · exact Or.inr ((hmem_X b).mpr (Or.inr (Or.inr (Or.inr (Or.inr (Or.inr h))))))
                · intro r' hr' bm' hbm'
                  rcases mem_updateReq hr' with h | ⟨r₀, hr₀, he'⟩
                  · exact hwf.beam_nodup r' h bm' hbm'
                  · subst he'
                    simp only at hbm'
                    rcases List.mem_or_eq_of_mem_set hbm' with h | h
                    · exact hwf.beam_nodup r₀ hr₀ bm' h
                    · subst h
                      show (bm.blocks.dropLast ++ [nb]).Nodup
                      have hdnd : bm.blocks.dropLast.Nodup :=
                        (hwf.beam_nodup r hrmem bm hbmem).sublist (List.dropLast_sublist bm.blocks)
                      have hnbd : nb ∉ bm.blocks.dropLast := by
                        intro hc
                        exact hnbused (mem_reqsBlocks_of hrmem
                          (mem_beamsBlocks_of hbmem (hdropsub nb hc)))
                      simp [List.nodup_append, hdnd, hnbd]
                · exact ids_nodup_updateReq (fun _ => rfl) hwf.ids_nodup
      · -- block boundary: allocate a fresh block
        rw [if_neg hroom] at he
        cases hfree : s.freeList with
        | nil =>
          rw [hfree] at he
          dsimp only at he
          exact absurd he (by simp)
        | cons nb rest =>
          rw [hfree] at he
          dsimp only at he
          simp only [Except.ok.injEq] at he
          subst he
          obtain ⟨u, v, hu1, hu2⟩ := updateReq_decomp hfind
            (fun x => { x with beams := x.beams.set bi ⟨bm.blocks ++ [nb], bm.len + 1⟩ })
          obtain ⟨u', v', hb1, hb2⟩ := set_decomp hbm
            (⟨bm.blocks ++ [nb], bm.len + 1⟩ : BeamState)
          have hb1' : reqBlocks r = u' ++ (bm.blocks ++ v') := by
            simpa [reqBlocks] using hb1
          have hmem_s : ∀ x, x ∈ usedList s ↔
              x ∈ u ∨ x ∈ u' ∨ x ∈ bm.blocks ∨ x ∈ v' ∨ x ∈ v := by
            intro x
            simp only [usedList]
            rw [hu1, hb1']
            simp only [List.mem_append]
            tauto
          have hmem_X : ∀ x,
              (x ∈ reqsBlocks (updateReq rid
                (fun y => { y with beams := y.beams.set bi ⟨bm.blocks ++ [nb], bm.len + 1⟩ })
                s.reqs)) ↔
              x ∈ u ∨ x ∈ u' ∨ x ∈ bm.blocks ∨ x = nb ∨ x ∈ v' ∨ x ∈ v := by
            intro x
            rw [hu2]
            have hb2' : reqBlocks
                ({ r with beams := r.beams.set bi ⟨bm.blocks ++ [nb], bm.len + 1⟩ })
                = u' ++ ((bm.blocks ++ [nb]) ++ v') := by
              simpa [reqBlocks] using hb2
            rw [hb2']
            simp only [List.mem_append, List.mem_singleton]
            tauto
          have hnbfree : nb ∈ s.freeList := by
            rw [hfree]
            exact List.mem_cons_self nb rest
          refine ⟨rfl, rfl, rfl, rfl, rfl, ?_, ?_, ?_⟩
          · simp only [activeIds]
            exact map_rid_updateReq (fun _ => rfl)
          · intro r' hr'
            rcases mem_updateReq hr' with h | ⟨r₀, hr₀, he'⟩
            · exact ⟨r', h, rfl⟩
            · exact ⟨r₀, hr₀, by rw [he']⟩
          · intro hwf
            have hnbtot : nb < s.total := hwf.free_lt nb hnbfree
            have hnbused : nb ∉ usedList s := hwf.disj nb hnbfree
            have hfreend : (nb :: rest).Nodup := by
              rw [← hfree]
              exact hwf.free_nodup
            obtain ⟨hnbrest, hrestnd⟩ := List.nodup_cons.mp hfreend
            refine ⟨?_, ?_, hrestnd, ?_, ?_, ?_, ?_⟩
            · intro b hb
              exact hwf.free_lt b (by rw [hfree]; exact List.mem_cons_of_mem nb hb)
            · intro b hb
              rcases (hmem_X b).mp hb with h | h | h | h | h | h
              · exact hwf.used_lt b ((hmem_s b).mpr (Or.inl h))
              · exact hwf.used_lt b ((hmem_s b).mpr (Or.inr (Or.inl h)))
              · exact hwf.used_lt b ((hmem_s b).mpr (Or.inr (Or.inr (Or.inl h))))
              · subst h
                exact hnbtot
              · exact hwf.used_lt b ((hmem_s b).mpr (Or.inr (Or.inr (Or.inr (Or.inl h)))))
              · exact hwf.used_lt b ((hmem_s b).mpr (Or.inr (Or.inr (Or.inr (Or.inr h)))))
            · intro b hb hbin
              have hbused : b ∉ usedList s :=
                hwf.disj b (by rw [hfree]; exact List.mem_cons_of_mem nb hb)
              rcases (hmem_X b).mp hbin with h | h | h | h | h | h
              · exact hbused ((hmem_s b).mpr (Or.inl h))
              · exact hbused ((hmem_s b).mpr (Or.inr (Or.inl h)))
              · exact hbused ((hmem_s b).mpr (Or.inr (Or.inr (Or.inl h))))
              · subst h
                exact hnbrest hb
              · exact hbused ((hmem_s b).mpr (Or.inr (Or.inr (Or.inr (Or.inl h)))))
              · exact hbused ((hmem_s b).mpr (Or.inr (Or.inr (Or.inr (Or.inr h)))))
            · intro b hbtot
              rcases hwf.cover b hbtot with h | h
              · rw [hfree] at h
                rcases List.mem_cons.mp h with h | h
                · subst h
                  exact Or.inr ((hmem_X b).mpr (Or.inr (Or.inr (Or.inr (Or.inl rfl)))))
                · exact Or.inl h
              · rcases (hmem_s b).mp h with h | h | h | h | h
                · exact Or.inr ((hmem_X b).mpr (Or.inl h))
                · exact Or.inr ((hmem_X b).mpr (Or.inr (Or.inl h)))
                · exact Or.inr ((hmem_X b).mpr (Or.inr (Or.inr (Or.inl h))))
                · exact Or.inr ((hmem_X b).mpr (Or.inr (Or.inr (Or.inr (Or.inr (Or.inl h))))))
                · exact Or.inr ((hmem_X b).mpr (Or.inr (Or.inr (Or.inr (Or.inr (Or.inr h))))))
            · intro r' hr' bm' hbm'
              rcases mem_updateReq hr' with h | ⟨r₀, hr₀, he'⟩
              · exact hwf.beam_nodup r' h bm' hbm'
              · subst he'
                simp only at hbm'
                rcases List.mem_or_eq_of_mem_set hbm' with h | h
                · exact hwf.beam_nodup r₀ hr₀ bm' h
                · subst h
                  show (bm.blocks ++ [nb]).Nodup
                  have hbnd : bm.blocks.Nodup := hwf.beam_nodup r hrmem bm hbmem
                  have hnbd : nb ∉ bm.blocks := by
                    intro hc
                    exact hnbused (mem_reqsBlocks_of hrmem (mem_beamsBlocks_of hbmem hc))
                  simp [List.nodup_append, hbnd, hnbd]
            · exact ids_nodup_updateReq (fun _ => rfl) hwf.ids_nodup


/-! ### Preservation by growSequence -/

theorem growBeam_ok {s s' : ManagerState} {rid bi : Nat} {toks : List Token}
    (he : growBeam s rid bi toks = Except.ok s') :
    s'.total = s.total ∧ s'.cap = s.cap ∧ s'.policy = s.policy ∧ s'.fatal = s.fatal ∧
    s'.responses = s.responses ∧ activeIds s' = activeIds s ∧
    (∀ r' ∈ s'.reqs, ∃ r₀ ∈ s.reqs, r'.phase = r₀.phase) ∧
    (WF s → WF s') := by
  induction toks generalizing s with
  | nil =>
    simp only [growBeam, List.foldlM_nil] at he
    have hss : s = s' := Except.ok.inj he
    subst hss
    exact ⟨rfl, rfl, rfl, rfl, rfl, rfl, fun r' h => ⟨r', h, rfl⟩, id⟩
  | cons t ts ih =>
    simp only [growBeam, List.foldlM_cons] at he
    cases ha : appendToken s rid bi t with
    | error e =>
      rw [ha] at he
      exact absurd he (by simp [bind, Except.bind])
    | ok s₁ =>
      rw [ha] at he
      have he' : growBeam s₁ rid bi ts = Except.ok s' := by
        simpa [growBeam, bind, Except.bind] using he
      obtain ⟨t1, c1, p1, f1, r1, a1, ph1, w1⟩ := appendToken_ok ha
      obtain ⟨t2, c2, p2, f2, r2, a2, ph2, w2⟩ := ih he'
      refine ⟨t2.trans t1, c2.trans c1, p2.trans p1, f2.trans f1, r2.trans r1,
        a2.trans a1, ?_, fun hw => w2 (w1 hw)⟩
      intro r' hr'
      obtain ⟨r₀, h₀, e₀⟩ := ph2 r' hr'
      obtain ⟨r₁, h₁, e₁⟩ := ph1 r₀ h₀
      exact ⟨r₁, h₁, e₀.trans e₁⟩

/-! ### Preservation by release / retire -/

theorem blocks_nil_of_beamsBlocks_nil {bs : List BeamState}
    (h : beamsBlocks bs = []) : ∀ bm ∈ bs, bm.blocks = [] := by
  induction bs with
  | nil => simp
  | cons a t ih =>
    simp only [beamsBlocks, List.append_eq_nil] at h
    intro bm hbm
    rcases List.mem_cons.mp hbm with he | hm
    · rw [he]
      exact h.1
    · exact ih h.2 bm hm

theorem reqsBlocks_updateReq_same {l : List ReqState} {rid : Nat} {f : ReqState → ReqState}
    (hf : ∀ x, reqBlocks (f x) = reqBlocks x) :
    reqsBlocks (updateReq rid f l) = reqsBlocks l := by
  induction l with
  | nil => rfl
  | cons a t ih =>
    simp only [updateReq]
    by_cases ha : (a.rid == rid) = true
    · rw [if_pos ha]
      simp [reqsBlocks, hf a]
    · rw [if_neg ha]
      simp [reqsBlocks, ih]

theorem releaseRequest_spec (s : ManagerState) (rid : Nat) (f : ReqState → ReqState)
    (hf : ∀ x, (f x).rid = x.rid) (hfb : ∀ x, reqBlocks (f x) = []) :
    (releaseRequest s rid f).total = s.total ∧ (releaseRequest s rid f).cap = s.cap ∧
    (releaseRequest s rid f).policy = s.policy ∧ (releaseRequest s rid f).fatal = s.fatal ∧
    (releaseRequest s rid f).responses = s.responses ∧
    activeIds (releaseRequest s rid f) = activeIds s ∧
    (∀ r' ∈ (releaseRequest s rid f).reqs, r' ∈ s.reqs ∨ ∃ r₀ ∈ s.reqs, r' = f r₀) ∧
    (WF s → WF (releaseRequest s rid f)) := by
  unfold releaseRequest
  cases hfind : s.reqs.find? (fun x => x.rid == rid) with
  | none =>
    exact ⟨rfl, rfl, rfl, rfl, rfl, rfl, fun r' h => Or.inl h, id⟩
  | some r =>
    dsimp only
    obtain ⟨u, v, hu1, hu2⟩ := updateReq_decomp hfind f
    have hrest : reqsBlocks (updateReq rid f s.reqs) = u ++ v := by
      rw [hu2, hfb r]
      simp
    have hmem_s : ∀ x, x ∈ usedList s ↔ x ∈ u ∨ x ∈ reqBlocks r ∨ x ∈ v := by
      intro x
      simp only [usedList]
      rw [hu1]
      simp [List.mem_append]
    refine ⟨rfl, rfl, rfl, rfl, rfl, ?_, ?_, ?_⟩
    · simp only [activeIds]
      exact map_rid_updateReq hf
    · intro r' hr'
      rcases mem_updateReq hr' with h | ⟨r₀, hr₀, he'⟩
      · exact Or.inl h
      · exact Or.inr ⟨r₀, hr₀, he'⟩
    · intro hwf
      have hretmem : ∀ x,
          x ∈ (reqBlocks r).dedup.filter (fun b => decide (b ∉ reqsBlocks (updateReq rid f s.reqs)))
            ↔ (x ∈ reqBlocks r ∧ (x ∉ u ++ v)) := by
        intro x
        rw [List.mem_filter]
        rw [hrest]
        simp [List.mem_dedup]
      refine ⟨?_, ?_, ?_, ?_, ?_, ?_, ?_⟩
      · intro b hb
        rcases List.mem_append.mp hb with h | h
        · have := ((hretmem b).mp h).1
          exact hwf.used_lt b ((hmem_s b).mpr (Or.inr (Or.inl this)))
        · exact hwf.free_lt b h
      · intro b hb
        show b < s.total
        simp only [usedList] at hb
        rw [hrest] at hb
        rcases List.mem_append.mp hb with h | h
        · exact hwf.used_lt b ((hmem_s b).mpr (Or.inl h))
        · exact hwf.used_lt b ((hmem_s b).mpr (Or.inr (Or.inr h)))
      · show ((reqBlocks r).dedup.filter _ ++ s.freeList).Nodup
        refine List.Nodup.append ((List.nodup_dedup _).filter _) hwf.free_nodup ?_
        intro a ha hafree
        have := ((hretmem a).mp ha).1
        exact hwf.disj a hafree ((hmem_s a).mpr (Or.inr (Or.inl this)))
      · intro b hb
        show b ∉ reqsBlocks (updateReq rid f s.reqs)
        rw [hrest]
        rcases List.mem_append.mp hb with h | h
        · exact ((hretmem b).mp h).2
        · intro hc
          rcases List.mem_append.mp hc with h' | h'
          · exact hwf.disj b h ((hmem_s b).mpr (Or.inl h'))
          · exact hwf.disj b h ((hmem_s b).mpr (Or.inr (Or.inr h')))
      · intro b hbtot
        rcases hwf.cover b hbtot with h | h
        · exact Or.inl (List.mem_append.mpr (Or.inr h))
        · rcases (hmem_s b).mp h with h | h | h
          · refine Or.inr ?_
            show b ∈ reqsBlocks (updateReq rid f s.reqs)
            rw [hrest]
            exact List.mem_append.mpr (Or.inl h)
          · by_cases hc : b ∈ u ++ v
            · refine Or.inr ?_
              show b ∈ reqsBlocks (updateReq rid f s.reqs)
              rw [hrest]
              exact hc
            · exact Or.inl (List.mem_append.mpr (Or.inl ((hretmem b).mpr ⟨h, hc⟩)))
          · refine Or.inr ?_
            show b ∈ reqsBlocks (updateReq rid f s.reqs)
            rw [hrest]
            exact List.mem_append.mpr (Or.inr h)
      · intro r' hr' bm' hbm'
        rcases mem_updateReq hr' with h | ⟨r₀, hr₀, he'⟩
        · exact hwf.beam_nodup r' h bm' hbm'
        · subst he'
          have : bm'.blocks = [] :=
            blocks_nil_of_beamsBlocks_nil (hfb r₀) bm' hbm'
          rw [this]
          exact List.nodup_nil
      · exact ids_nodup_updateReq hf hwf.ids_nodup

theorem retireRequest_spec (s : ManagerState) (rid : Nat) (outOf : ReqState → List Token)
    (err : String) :
    (retireRequest s rid outOf err).total = s.total ∧
    (retireRequest s rid outOf err).cap = s.cap ∧
    (retireRequest s rid outOf err).policy = s.policy ∧
    (retireRequest s rid outOf err).fatal = s.fatal ∧
    (∀ r' ∈ (retireRequest s rid outOf err).reqs, r' ∈ s.reqs) ∧
    (∀ resp ∈ (retireRequest s rid outOf err).responses,
      resp ∈ s.responses ∨ (resp.rid = rid ∧ resp.isFinal = true)) ∧
    (∀ resp ∈ s.responses, resp ∈ (retireRequest s rid outOf err).responses) ∧
    (∀ x ∈ activeIds s, x ∉ activeIds (retireRequest s rid outOf err) →
      ∃ resp ∈ (retireRequest s rid outOf err).responses, resp.rid = x ∧ resp.isFinal = true) ∧
    (rid ∉ activeIds s → retireRequest s rid outOf err = s) ∧
    (WF s → WF (retireRequest s rid outOf err)) := by
  unfold retireRequest
  cases hfind : s.reqs.find? (fun x => x.rid == rid) with
  | none =>
    refine ⟨rfl, rfl, rfl, rfl, fun r' h => h, fun resp h => Or.inl h, fun resp h => h, ?_,
      fun _ => rfl, id⟩
    intro x hx hx'
    exact absurd hx hx'
  | some r =>
    dsimp only
    have hrmem : r ∈ s.reqs := find?_rid_mem hfind
    obtain ⟨u, v, hu1, hu2⟩ := removeReq_decomp hfind
    have hmem_s : ∀ x, x ∈ usedList s ↔ x ∈ u ∨ x ∈ reqBlocks r ∨ x ∈ v := by
      intro x
      simp only [usedList]
      rw [hu1]
      simp [List.mem_append]
    refine ⟨rfl, rfl, rfl, rfl, ?_, ?_, ?_, ?_, ?_, ?_⟩
    · intro r' hr'
      exact mem_removeReq hr'
    · intro resp hresp
      simp only [List.mem_append, List.mem_singleton] at hresp
      rcases hresp with h | h
      · exact Or.inl h
      · subst h
        exact Or.inr ⟨rfl, rfl⟩
    · intro resp hresp
      exact List.mem_append.mpr (Or.inl hresp)
    · intro x hx hx'
      simp only [activeIds] at hx hx'
      have hxr : x = rid := rid_eq_of_removed hx hx'
      subst hxr
      exact ⟨⟨x, outOf r, true, err⟩, List.mem_append.mpr (Or.inr (List.mem_singleton.mpr rfl)),
        rfl, rfl⟩
    · intro hnot
      rw [find?_eq_none_of_not_mem hnot] at hfind
      exact absurd hfind (by simp)
    · intro hwf
      have hretmem : ∀ x,
          x ∈ (reqBlocks r).dedup.filter (fun b => decide (b ∉ reqsBlocks (removeReq rid s.reqs)))
            ↔ (x ∈ reqBlocks r ∧ (x ∉ u ++ v)) := by
        intro x
        rw [List.mem_filter]
        rw [hu2]
        simp [List.mem_dedup]
      refine ⟨?_, ?_, ?_, ?_, ?_, ?_, ?_⟩
      · intro b hb
        rcases List.mem_append.mp hb with h | h
        · have := ((hretmem b).mp h).1
          exact hwf.used_lt b ((hmem_s b).mpr (Or.inr (Or.inl this)))
        · exact hwf.free_lt b h
      · intro b hb
        show b < s.total
        simp only [usedList] at hb
        rw [hu2] at hb
        rcases List.mem_append.mp hb with h | h
        · exact hwf.used_lt b ((hmem_s b).mpr (Or.inl h))
        · exact hwf.used_lt b ((hmem_s b).mpr (Or.inr (Or.inr h)))
      · show ((reqBlocks r).dedup.filter _ ++ s.freeList).Nodup
        refine List.Nodup.append ((List.nodup_dedup _).filter _) hwf.free_nodup ?_
        intro a ha hafree
        have := ((hretmem a).mp ha).1
        exact hwf.disj a hafree ((hmem_s a).mpr (Or.inr (Or.inl this)))
      · intro b hb
        show b ∉ reqsBlocks (removeReq rid s.reqs)
        rw [hu2]
        rcases List.mem_append.mp hb with h | h
        · exact ((hretmem b).mp h).2
        · intro hc
          rcases List.mem_append.mp hc with h' | h'
          · exact hwf.disj b h ((hmem_s b).mpr (Or.inl h'))
          · exact hwf.disj b h ((hmem_s b).mpr (Or.inr (Or.inr h')))
      · intro b hbtot
        rcases hwf.cover b hbtot with h | h
        · exact Or.inl (List.mem_append.mpr (Or.inr h))
        · rcases (hmem_s b).mp h with h | h | h
          · refine Or.inr ?_
            show b ∈ reqsBlocks (removeReq rid s.reqs)
            rw [hu2]
            exact List.mem_append.mpr (Or.inl h)
          · by_cases hc : b ∈ u ++ v
            · refine Or.inr ?_
              show b ∈ reqsBlocks (removeReq rid s.reqs)
              rw [hu2]
              exact hc
            · exact Or.inl (List.mem_append.mpr (Or.inl ((hretmem b).mpr ⟨h, hc⟩)))
          · refine Or.inr ?_
            show b ∈ reqsBlocks (removeReq rid s.reqs)
            rw [hu2]
            exact List.mem_append.mpr (Or.inr h)
      · intro r' hr' bm' hbm'
        exact hwf.beam_nodup r' (mem_removeReq hr') bm' hbm'
      · show ((removeReq rid s.reqs).map (·.rid)).Nodup
        exact hwf.ids_nodup.sublist ((removeReq_sublist rid s.reqs).map (·.rid))

/-! ### Preservation by admission and branching -/

theorem acceptRequest_spec (s : ManagerState) (rid bw ml : Nat) :
    (acceptRequest s rid bw ml).total = s.total ∧
    (acceptRequest s rid bw ml).cap = s.cap ∧
    (acceptRequest s rid bw ml).policy = s.policy ∧
    (acceptRequest s rid bw ml).fatal = s.fatal ∧
    (acceptRequest s rid bw ml).responses = s.responses ∧
    (∀ x ∈ activeIds s, x ∈ activeIds (acceptRequest s rid bw ml)) ∧
    (∀ r' ∈ (acceptRequest s rid bw ml).reqs,
      r' ∈ s.reqs ∨ r'.phase = RequestPhase.CONTEXT) ∧
    usedList (acceptRequest s rid bw ml) = usedList s ∧
    (WF s → WF (acceptRequest s rid bw ml)) := by
  unfold acceptRequest
  by_cases h1 : rid ∈ activeIds s
  · rw [if_pos h1]
    exact ⟨rfl, rfl, rfl, rfl, rfl, fun x h => h, fun r' h => Or.inl h, rfl, id⟩
  · rw [if_neg h1]
    by_cases h2 : canAllocate s bw ml = true
    · rw [if_pos h2]
      have hused : usedList
          { s with reqs := s.reqs ++
            [{ rid := rid, beamWidth := bw, maxLen := ml,
               beams := List.replicate bw { blocks := [], len := 0 },
               phase := RequestPhase.CONTEXT }] } = usedList s := by
        simp only [usedList]
        rw [reqsBlocks_append]
        simp only [reqsBlocks, reqBlocks]
        rw [beamsBlocks_replicate_empty]
        simp
      refine ⟨rfl, rfl, rfl, rfl, rfl, ?_, ?_, hused, ?_⟩
      · intro x h
        simp only [activeIds, List.map_append, List.mem_append]
        exact Or.inl h
      · intro r' h
        rcases List.mem_append.mp h with h | h
        · exact Or.inl h
        · right
          have hre : r' = (⟨rid, bw, ml, List.replicate bw ⟨[], 0⟩,
              RequestPhase.CONTEXT⟩ : ReqState) := by simpa using h
          rw [hre]
      · intro hwf
        refine ⟨hwf.free_lt, ?_, hwf.free_nodup, ?_, ?_, ?_, ?_⟩
        · intro b hb
          rw [hused] at hb
          exact hwf.used_lt b hb
        · intro b hb
          rw [hused]
          exact hwf.disj b hb
        · intro b hb
          rw [hused]
          exact hwf.cover b hb
        · intro r' hr' bm' hbm'
          rcases List.mem_append.mp hr' with h | h
          · exact hwf.beam_nodup r' h bm' hbm'
          · have hr2 : r' = (⟨rid, bw, ml, List.replicate bw ⟨[], 0⟩,
                RequestPhase.CONTEXT⟩ : ReqState) := by simpa using h
            subst hr2
            simp only at hbm'
            have : bm' = { blocks := [], len := 0 } := List.eq_of_mem_replicate hbm'
            rw [this]
            exact List.nodup_nil
        · show ((s.reqs ++ [(⟨rid, bw, ml, List.replicate bw ⟨[], 0⟩,
              RequestPhase.CONTEXT⟩ : ReqState)]).map (·.rid)).Nodup
          rw [List.map_append]
          simp only [List.map_cons, List.map_nil]
          refine List.Nodup.append hwf.ids_nodup (List.nodup_singleton rid) ?_
          intro a ha hb
          have : a = rid := by simpa using hb
          subst this
          exact h1 ha
    · rw [if_neg h2]
      exact ⟨rfl, rfl, rfl, rfl, rfl, fun x h => h, fun r' h => Or.inl h, rfl, id⟩

theorem branchBeam_spec (s : ManagerState) (rid src : Nat) :
    (branchBeam s rid src).total = s.total ∧
    (branchBeam s rid src).cap = s.cap ∧
    (branchBeam s rid src).policy = s.policy ∧
    (branchBeam s rid src).fatal = s.fatal ∧
    (branchBeam s rid src).responses = s.responses ∧
    activeIds (branchBeam s rid src) = activeIds s ∧
    (∀ r' ∈ (branchBeam s rid src).reqs, ∃ r₀ ∈ s.reqs, r'.phase = r₀.phase) ∧
    (WF s → WF (branchBeam s rid src)) := by
  unfold branchBeam
  cases hfind : s.reqs.find? (fun x => x.rid == rid) with
  | none =>
    exact ⟨rfl, rfl, rfl, rfl, rfl, rfl, fun r' h => ⟨r', h, rfl⟩, id⟩
  | some r =>
    dsimp only
    have hrmem : r ∈ s.reqs := find?_rid_mem hfind
    cases hbm : r.beams[src]? with
    | none =>
      exact ⟨rfl, rfl, rfl, rfl, rfl, rfl, fun r' h => ⟨r', h, rfl⟩, id⟩
    | some bm =>
      dsimp only
      have hbmem : bm ∈ r.beams := List.getElem?_mem hbm
      obtain ⟨u, v, hu1, hu2⟩ := updateReq_decomp hfind
        (fun x => { x with beams := x.beams ++ [bm] })
      have hfr : reqBlocks ({ r with beams := r.beams ++ [bm] }) =
          beamsBlocks r.beams ++ (bm.blocks ++ []) := by
        simp only [reqBlocks]
        rw [beamsBlocks_append]
        simp [beamsBlocks]
      have hmem_s : ∀ x, x ∈ usedList s ↔
          x ∈ u ∨ x ∈ beamsBlocks r.beams ∨ x ∈ v := by
        intro x
        simp only [usedList]
        rw [hu1]
        simp only [reqBlocks, List.mem_append]
      have hmem_X : ∀ x,
          x ∈ reqsBlocks (updateReq rid (fun y => { y with beams := y.beams ++ [bm] }) s.reqs) ↔
          x ∈ u ∨ x ∈ beamsBlocks r.beams ∨ x ∈ bm.blocks ∨ x ∈ v := by
        intro x
        rw [hu2, hfr]
        simp only [List.mem_append]
        tauto
      have hsub : ∀ x ∈ bm.blocks, x ∈ beamsBlocks r.beams :=
        fun x hx => mem_beamsBlocks_of hbmem hx
      refine ⟨rfl, rfl, rfl, rfl, rfl, ?_, ?_, ?_⟩
      · simp only [activeIds]
        exact map_rid_updateReq (fun _ => rfl)
      · intro r' hr'
        rcases mem_updateReq hr' with h | ⟨r₀, hr₀, he'⟩
        · exact ⟨r', h, rfl⟩
        · exact ⟨r₀, hr₀, by rw [he']⟩
      · intro hwf
        refine ⟨hwf.free_lt, ?_, hwf.free_nodup, ?_, ?_, ?_, ?_⟩
        · intro b hb
          show b < s.total
          simp only [usedList] at hb
          rcases (hmem_X b).mp hb with h | h | h | h
          · exact hwf.used_lt b ((hmem_s b).mpr (Or.inl h))
          · exact hwf.used_lt b ((hmem_s b).mpr (Or.inr (Or.inl h)))
          · exact hwf.used_lt b ((hmem_s b).mpr (Or.inr (Or.inl (hsub b h))))
          · exact hwf.used_lt b ((hmem_s b).mpr (Or.inr (Or.inr h)))
        · intro b hb hbin
          simp only [usedList] at hbin
          rcases (hmem_X b).mp hbin with h | h | h | h
          · exact hwf.disj b hb ((hmem_s b).mpr (Or.inl h))
          · exact hwf.disj b hb ((hmem_s b).mpr (Or.inr (Or.inl h)))
          · exact hwf.disj b hb ((hmem_s b).mpr (Or.inr (Or.inl (hsub b h))))
          · exact hwf.disj b hb ((hmem_s b).mpr (Or.inr (Or.inr h)))
        · intro b hbtot
          rcases hwf.cover b hbtot with h | h
          · exact Or.inl h
          · refine Or.inr ?_
            show b ∈ usedList _
            simp only [usedList]
            rcases (hmem_s b).mp h with h | h | h
            · exact (hmem_X b).mpr (Or.inl h)
            · exact (hmem_X b).mpr (Or.inr (Or.inl h))
            · exact (hmem_X b).mpr (Or.inr (Or.inr (Or.inr h)))
        · intro r' hr' bm' hbm'
          rcases mem_updateReq hr' with h | ⟨r₀, hr₀, he'⟩
          · exact hwf.beam_nodup r' h bm' hbm'
          · subst he'
            simp only at hbm'
            rcases List.mem_append.mp hbm' with h | h
            · exact hwf.beam_nodup r₀ hr₀ bm' h
            · have : bm' = bm := by simpa using h
              subst this
              exact hwf.beam_nodup r hrmem bm' hbmem
        · exact ids_nodup_updateReq (fun _ => rfl) hwf.ids_nodup

/-! ### Preservation by growth steps and the scheduler loop -/

theorem wf_set_fatal {s : ManagerState} (h : WF s) (b : Bool) : WF { s with fatal := b } :=
  ⟨h.free_lt, h.used_lt, h.free_nodup, h.disj, h.cover, h.beam_nodup, h.ids_nodup⟩

theorem growStep_spec (s : ManagerState) (rid bi : Nat) (toks : List Token) :
    (growStep s rid bi toks).total = s.total ∧
    (growStep s rid bi toks).cap = s.cap ∧
    (growStep s rid bi toks).policy = s.policy ∧
    (∀ resp ∈ s.responses, resp ∈ (growStep s rid bi toks).responses) ∧
    (∀ resp ∈ (growStep s rid bi toks).responses,
      resp ∈ s.responses ∨ resp.errMsg = "" ∨ resp.isFinal = true) ∧
    (∀ x ∈ activeIds s, x ∉ activeIds (growStep s rid bi toks) →
      ∃ resp ∈ (growStep s rid bi toks).responses, resp.rid = x ∧ resp.isFinal = true) ∧
    (WF s → WF (growStep s rid bi toks)) := by
  unfold growStep
  cases hg : growBeam s rid bi toks with
  | ok s₁ =>
    dsimp only
    obtain ⟨t1, c1, p1, f1, r1, a1, ph1, w1⟩ := growBeam_ok hg
    have hids : activeIds
        { s₁ with
          reqs := updateReq rid (fun r => { r with phase := RequestPhase.GENERATION }) s₁.reqs,
          responses := s₁.responses ++ [⟨rid, toks, false, ""⟩] } = activeIds s := by
      refine Eq.trans (map_rid_updateReq ?_) a1
      intro x
      rfl
    refine ⟨t1, c1, p1, ?_, ?_, ?_, ?_⟩
    · intro resp h
      show resp ∈ s₁.responses ++ _
      rw [r1]
      exact List.mem_append.mpr (Or.inl h)
    · intro resp h
      rcases List.mem_append.mp h with h | h
      · rw [r1] at h
        exact Or.inl h
      · have : resp = ⟨rid, toks, false, ""⟩ := by simpa using h
        rw [this]
        exact Or.inr (Or.inl rfl)
    · intro x hx hx'
      rw [hids] at hx'
      exact absurd hx hx'
    · intro hwf
      have hwf₁ := w1 hwf
      have hused : reqsBlocks
          (updateReq rid (fun r => { r with phase := RequestPhase.GENERATION }) s₁.reqs)
          = reqsBlocks s₁.reqs :=
        reqsBlocks_updateReq_same (fun _ => rfl)
      refine ⟨hwf₁.free_lt, ?_, hwf₁.free_nodup, ?_, ?_, ?_, ?_⟩
      · intro b hb
        simp only [usedList] at hb
        rw [hused] at hb
        exact hwf₁.used_lt b hb
      · intro b hb
        show b ∉ usedList _
        simp only [usedList]
        rw [hused]
        exact hwf₁.disj b hb
      · intro b hb
        rcases hwf₁.cover b hb with h | h
        · exact Or.inl h
        · refine Or.inr ?_
          show b ∈ usedList _
          simp only [usedList]
          rw [hused]
          exact h
      · intro r' hr' bm' hbm'
        rcases mem_updateReq hr' with h | ⟨r₀, hr₀, he'⟩
        · exact hwf₁.beam_nodup r' h bm' hbm'
        · subst he'
          exact hwf₁.beam_nodup r₀ hr₀ bm' hbm'
      · exact ids_nodup_updateReq (fun _ => rfl) hwf₁.ids_nodup
  | error e =>
    cases e with
    | NotFound =>
      exact ⟨rfl, rfl, rfl, fun resp h => h, fun resp h => Or.inl h,
        fun x hx hx' => absurd hx hx', id⟩
    | OutOfBlocks =>
      dsimp only
      cases hp : s.policy with
      | MAX_UTILIZATION =>
        dsimp only
        obtain ⟨t1, c1, p1, f1, r1, a1, ph1, w1⟩ :=
          releaseRequest_spec s rid
            (fun r => { clearBeams r with phase := RequestPhase.PAUSED })
            (fun _ => rfl) (fun x => reqBlocks_clearBeams x)
        refine ⟨t1, c1, p1.trans hp, ?_, ?_, ?_, w1⟩
        · intro resp h
          show resp ∈ (pauseRequest s rid).responses
          unfold pauseRequest
          rw [r1]
          exact h
        · intro resp h
          refine Or.inl ?_
          have : (pauseRequest s rid).responses = s.responses := r1
          rw [this] at h
          exact h
        · intro x hx hx'
          have : activeIds (pauseRequest s rid) = activeIds s := a1
          rw [this] at hx'
          exact absurd hx hx'
      | GUARANTEED_NO_EVICT =>
        dsimp only
        obtain ⟨t1, c1, p1, f1, rq1, rn1, rm1, if1, nf1, w1⟩ :=
          retireRequest_spec s rid (fun _ => []) "OutOfBlocks"
        refine ⟨t1, c1, p1.trans hp, ?_, ?_, ?_, ?_⟩
        · intro resp h
          exact rm1 resp h
        · intro resp h
          rcases rn1 resp h with h | h
          · exact Or.inl h
          · exact Or.inr (Or.inr h.2)
        · intro x hx hx'
          exact if1 x hx hx'
        · intro hwf
          exact wf_set_fatal (w1 hwf) true

theorem step_spec (op : Op) (s : ManagerState) :
    (step op s).total = s.total ∧
    (step op s).cap = s.cap ∧
    (step op s).policy = s.policy ∧
    (∀ resp ∈ s.responses, resp ∈ (step op s).responses) ∧
    (∀ resp ∈ (step op s).responses,
      resp ∈ s.responses ∨ resp.errMsg = "" ∨ resp.isFinal = true) ∧
    (∀ x ∈ activeIds s, x ∉ activeIds (step op s) →
      ∃ resp ∈ (step op s).responses, resp.rid = x ∧ resp.isFinal = true) ∧
    (WF s → WF (step op s)) := by
  unfold step
  by_cases hf : s.fatal = true
  · rw [if_pos hf]
    exact ⟨rfl, rfl, rfl, fun resp h => h, fun resp h => Or.inl h,
      fun x hx hx' => absurd hx hx', id⟩
  · rw [if_neg hf]
    cases op with
    | accept rid bw ml =>
      obtain ⟨t1, c1, p1, f1, r1, i1, ph1, u1, w1⟩ := acceptRequest_spec s rid bw ml
      refine ⟨t1, c1, p1, ?_, ?_, ?_, w1⟩
      · intro resp h
        rw [r1]
        exact h
      · intro resp h
        rw [r1] at h
        exact Or.inl h
      · intro x hx hx'
        exact absurd (i1 x hx) hx'
    | grow rid bi toks =>
      exact growStep_spec s rid bi toks
    | branch rid src =>
      obtain ⟨t1, c1, p1, f1, r1, a1, ph1, w1⟩ := branchBeam_spec s rid src
      refine ⟨t1, c1, p1, ?_, ?_, ?_, w1⟩
      · intro resp h
        rw [r1]
        exact h
      · intro resp h
        rw [r1] at h
        exact Or.inl h
      · intro x hx hx'
        rw [a1] at hx'
        exact absurd hx hx'
    | free rid =>
      obtain ⟨t1, c1, p1, f1, r1, a1, ph1, w1⟩ :=
        releaseRequest_spec s rid clearBeams (fun _ => rfl) (fun x => reqBlocks_clearBeams x)
      refine ⟨t1, c1, p1, ?_, ?_, ?_, w1⟩
      · intro resp h
        show resp ∈ (freeRequest s rid).responses
        unfold freeRequest
        rw [r1]
        exact h
      · intro resp h
        have : (freeRequest s rid).responses = s.responses := r1
        rw [this] at h
        exact Or.inl h
      · intro x hx hx'
        have : activeIds (freeRequest s rid) = activeIds s := a1
        rw [this] at hx'
        exact absurd hx hx'
    | cancel rid =>
      obtain ⟨t1, c1, p1, f1, rq1, rn1, rm1, if1, nf1, w1⟩ :=
        retireRequest_spec s rid (fun _ => []) ""
      refine ⟨t1, c1, p1, rm1, ?_, if1, w1⟩
      intro resp h
      rcases rn1 resp h with h | h
      · exact Or.inl h
      · exact Or.inr (Or.inr h.2)
    | complete rid =>
      obtain ⟨t1, c1, p1, f1, rq1, rn1, rm1, if1, nf1, w1⟩ :=
        retireRequest_spec s rid
          (fun r => match r.beams.head? with
            | some bm => beamTokens s.contents bm
            | none => []) ""
      refine ⟨t1, c1, p1, rm1, ?_, if1, w1⟩
      intro resp h
      rcases rn1 resp h with h | h
      · exact Or.inl h
      · exact Or.inr (Or.inr h.2)

theorem run_cons (op : Op) (ops : List Op) (s : ManagerState) :
    run (op :: ops) s = run ops (step op s) := rfl

theorem run_spec (ops : List Op) (s : ManagerState) :
    (run ops s).total = s.total ∧
    (run ops s).cap = s.cap ∧
    (run ops s).policy = s.policy ∧
    (∀ resp ∈ s.responses, resp ∈ (run ops s).responses) ∧
    (∀ resp ∈ (run ops s).responses,
      resp ∈ s.responses ∨ resp.errMsg = "" ∨ resp.isFinal = true) ∧
    (∀ x ∈ activeIds s, x ∉ activeIds (run ops s) →
      ∃ resp ∈ (run ops s).responses, resp.rid = x ∧ resp.isFinal = true) ∧
    (WF s → WF (run ops s)) := by
  induction ops generalizing s with
  | nil =>
    exact ⟨rfl, rfl, rfl, fun resp h => h, fun resp h => Or.inl h,
      fun x hx hx' => absurd hx hx', id⟩
  | cons op ops ih =>
    rw [run_cons]
    obtain ⟨t1, c1, p1, rm1, rn1, if1, w1⟩ := step_spec op s
    obtain ⟨t2, c2, p2, rm2, rn2, if2, w2⟩ := ih (step op s)
    refine ⟨t2.trans t1, c2.trans c1, p2.trans p1, ?_, ?_, ?_, fun hw => w2 (w1 hw)⟩
    · intro resp h
      exact rm2 resp (rm1 resp h)
    · intro resp h
      rcases rn2 resp h with h' | h' | h'
      · rcases rn1 resp h' with h'' | h'' | h''
        · exact Or.inl h''
        · exact Or.inr (Or.inl h'')
        · exact Or.inr (Or.inr h'')
      · exact Or.inr (Or.inl h')
      · exact Or.inr (Or.inr h')
    · intro x hx hx'
      by_cases hmid : x ∈ activeIds (step op s)
      · exact if2 x hmid hx'
      · obtain ⟨resp, hr, he, hfin⟩ := if1 x hx hmid
        exact ⟨resp, rm2 resp hr, he, hfin⟩

theorem wf_mkInit (total cap : Nat) (policy : SchedulerPolicy) :
    WF (mkInit total cap policy) := by
  refine ⟨?_, ?_, ?_, ?_, ?_, ?_, ?_⟩
  · intro b hb
    simpa using List.mem_range.mp hb
  · intro b hb
    simp [usedList, mkInit, reqsBlocks] at hb
  · exact List.nodup_range total
  · intro b hb hc
    simp [usedList, mkInit, reqsBlocks] at hc
  · intro b hb
    exact Or.inl (List.mem_range.mpr hb)
  · intro r hr
    simp [mkInit] at hr
  · simp [activeIds, mkInit]

/-! ### No pause under GUARANTEED_NO_EVICT -/

theorem step_noPaused {op : Op} {s : ManagerState}
    (hp : s.policy = SchedulerPolicy.GUARANTEED_NO_EVICT)
    (h : NoPaused s) : NoPaused (step op s) := by
  unfold step
  by_cases hf : s.fatal = true
  · rw [if_pos hf]
    exact h
  · rw [if_neg hf]
    cases op with
    | accept rid bw ml =>
      obtain ⟨_, _, _, _, _, _, ph1, _, _⟩ := acceptRequest_spec s rid bw ml
      intro r' hr'
      rcases ph1 r' hr' with h' | h'
      · exact h r' h'
      · rw [h']
        intro hc
        exact absurd hc (by simp)
    | grow rid bi toks =>
      dsimp only
      unfold growStep
      cases hg : growBeam s rid bi toks with
      | ok s₁ =>
        dsimp only
        obtain ⟨_, _, _, _, _, _, ph1, _⟩ := growBeam_ok hg
        intro r' hr'
        rcases mem_updateReq hr' with h' | ⟨r₀, hr₀, he'⟩
        · obtain ⟨r₀, hr₀, he₀⟩ := ph1 r' h'
          rw [he₀]
          exact h r₀ hr₀
        · rw [he']
          intro hc
          exact absurd hc (by simp)
      | error e =>
        cases e with
        | NotFound => exact h
        | OutOfBlocks =>
          dsimp only
          rw [hp]
          dsimp only
          obtain ⟨_, _, _, _, rq1, _, _, _, _, _⟩ :=
            retireRequest_spec s rid (fun _ => []) "OutOfBlocks"
          intro r' hr'
          exact h r' (rq1 r' hr')
    | branch rid src =>
      obtain ⟨_, _, _, _, _, _, ph1, _⟩ := branchBeam_spec s rid src
      intro r' hr'
      obtain ⟨r₀, hr₀, he₀⟩ := ph1 r' hr'
      rw [he₀]
      exact h r₀ hr₀
    | free rid =>
      obtain ⟨_, _, _, _, _, _, ph1, _⟩ :=
        releaseRequest_spec s rid clearBeams (fun _ => rfl) (fun x => reqBlocks_clearBeams x)
      intro r' hr'
      rcases ph1 r' hr' with h' | ⟨r₀, hr₀, he'⟩
      · exact h r' h'
      · rw [he']
        show r₀.phase ≠ RequestPhase.PAUSED
        exact h r₀ hr₀
    | cancel rid =>
      obtain ⟨_, _, _, _, rq1, _, _, _, _, _⟩ := retireRequest_spec s rid (fun _ => []) ""
      intro r' hr'
      exact h r' (rq1 r' hr')
    | complete rid =>
      obtain ⟨_, _, _, _, rq1, _, _, _, _, _⟩ :=
        retireRequest_spec s rid
          (fun r => match r.beams.head? with
            | some bm => beamTokens s.contents bm
            | none => []) ""
      intro r' hr'
      exact h r' (rq1 r' hr')

theorem run_noPaused {ops : List Op} {s : ManagerState}
    (hp : s.policy = SchedulerPolicy.GUARANTEED_NO_EVICT)
    (h : NoPaused s) : NoPaused (run ops s) := by
  induction ops generalizing s with
  | nil => exact h
  | cons op ops ih =>
    rw [run_cons]
    obtain ⟨_, _, p1, _, _, _, _⟩ := step_spec op s
    exact ih (p1.trans hp) (step_noPaused hp h)

/-! ### Round-trip helper lemmas -/

theorem find?_append_none {l₁ l₂ : List ReqState} {p : ReqState → Bool}
    (h : l₁.find? p = none) : (l₁ ++ l₂).find? p = l₂.find? p := by
  induction l₁ with
  | nil => rfl
  | cons a t ih =>
    simp only [List.find?] at h
    cases ha : p a with
    | true =>
      rw [ha] at h
      exact absurd h (by simp)
    | false =>
      rw [ha] at h
      simp only [List.cons_append, List.find?, ha]
      exact ih h

theorem updateReq_append_not_mem {l₁ l₂ : List ReqState} {rid : Nat} {f : ReqState → ReqState}
    (h : rid ∉ l₁.map (·.rid)) : updateReq rid f (l₁ ++ l₂) = l₁ ++ updateReq rid f l₂ := by
  induction l₁ with
  | nil => rfl
  | cons a t ih =>
    simp only [List.map_cons, List.mem_cons] at h
    push_neg at h
    have ha : (a.rid == rid) = false := by simp [Ne.symm h.1]
    simp only [List.cons_append, updateReq, ha]
    simp [ih h.2]

theorem updateReq_single {r : ReqState} {rid : Nat} {f : ReqState → ReqState}
    (h : (r.rid == rid) = true) : updateReq rid f [r] = [f r] := by
  simp [updateReq, h]

theorem clearBeams_idem (x : ReqState) : clearBeams (clearBeams x) = clearBeams x := by
  simp [clearBeams, List.map_map]

theorem updateReq_clearBeams_idem (rid : Nat) (l : List ReqState) :
    updateReq rid clearBeams (updateReq rid clearBeams l) = updateReq rid clearBeams l := by
  induction l with
  | nil => rfl
  | cons a t ih =>
    simp only [updateReq]
    by_cases ha : (a.rid == rid) = true
    · rw [if_pos ha]
      have hca : ((clearBeams a).rid == rid) = true := ha
      simp only [updateReq, hca, if_pos]
      rw [clearBeams_idem]
    · rw [if_neg ha]
      simp only [updateReq, ha]
      rw [if_neg (by simp_all)]
      simp [ih]

theorem freeRequest_idem (s' : ManagerState) (rid' : Nat) :
    freeRequest (freeRequest s' rid') rid' = freeRequest s' rid' := by
  unfold freeRequest releaseRequest
  cases hfind : s'.reqs.find? (fun x => x.rid == rid') with
  | none =>
    dsimp only
    rw [hfind]
  | some r =>
    dsimp only
    have hfind2 : (updateReq rid' clearBeams s'.reqs).find? (fun x => x.rid == rid')
        = some (clearBeams r) := find?_updateReq_self (fun _ => rfl) hfind
    rw [hfind2]
    dsimp only
    rw [reqBlocks_clearBeams, updateReq_clearBeams_idem]
    simp

theorem appendToken_reqs {s s' : ManagerState} {rid bi : Nat} {t : Token}
    (he : appendToken s rid bi t = Except.ok s') :
    ∃ f : ReqState → ReqState, (∀ x, (f x).rid = x.rid) ∧ s'.reqs = updateReq rid f s.reqs := by
  unfold appendToken at he
  cases hfind : s.reqs.find? (fun r => r.rid == rid) with
  | none =>
    rw [hfind] at he
    exact absurd he (by simp)
  | some r =>
    rw [hfind] at he
    dsimp only at he
    cases hbm : r.beams[bi]? with
    | none =>
      rw [hbm] at he
      exact absurd he (by simp)
    | some bm =>
      rw [hbm] at he
      dsimp only at he
      by_cases hroom : bm.len < s.cap * bm.blocks.length
      · rw [if_pos hroom] at he
        cases hlast : bm.blocks.getLast? with
        | none =>
          rw [hlast] at he
          exact absurd he (by simp)
        | some lastB =>
          rw [hlast] at he
          dsimp only at he
          by_cases hrc : refCount s lastB ≤ 1
          · rw [if_pos hrc] at he
            simp only [Except.ok.injEq] at he
            subst he
            exact ⟨fun x => { x with beams := x.beams.set bi { bm with len := bm.len + 1 } },
              fun _ => rfl, rfl⟩
          · rw [if_neg hrc] at he
            cases hfree : s.freeList with
            | nil =>
              rw [hfree] at he
              exact absurd he (by simp)
            | cons nb rest =>
              rw [hfree] at he
              simp only [Except.ok.injEq] at he
              subst he
              exact ⟨fun x =>
                  { x with beams := x.beams.set bi ⟨bm.blocks.dropLast ++ [nb], bm.len + 1⟩ },
                fun _ => rfl, rfl⟩
      · rw [if_neg hroom] at he
        cases hfree : s.freeList with
        | nil =>
          rw [hfree] at he
          exact absurd he (by simp)
        | cons nb rest =>
          rw [hfree] at he
          simp only [Except.ok.injEq] at he
          subst he
          exact ⟨fun x => { x with beams := x.beams.set bi ⟨bm.blocks ++ [nb], bm.len + 1⟩ },
            fun _ => rfl, rfl⟩

theorem growBeam_reqs_shape {rid bi : Nat} {toks : List Token} :
    ∀ {s s₂ : ManagerState} {pre : List ReqState} {r : ReqState},
      growBeam s rid bi toks = Except.ok s₂ → s.reqs = pre ++ [r] → r.rid = rid →
      rid ∉ pre.map (·.rid) →
      ∃ r₂, s₂.reqs = pre ++ [r₂] ∧ r₂.rid = rid := by
  induction toks with
  | nil =>
    intro s s₂ pre r hg hs hr _
    have hg' : (pure s : Except CacheError ManagerState) = Except.ok s₂ := by
      simpa [growBeam] using hg
    have hss : s = s₂ := Except.ok.inj hg'
    subst hss
    exact ⟨r, hs, hr⟩
  | cons t ts ih =>
    intro s s₂ pre r hg hs hr hpre
    simp only [growBeam, List.foldlM_cons] at hg
    cases ha : appendToken s rid bi t with
    | error e =>
      rw [ha] at hg
      exact absurd hg (by simp [bind, Except.bind])
    | ok s₁ =>
      rw [ha] at hg
      have hg' : growBeam s₁ rid bi ts = Except.ok s₂ := by
        simpa [growBeam, bind, Except.bind] using hg
      obtain ⟨f, hf, hreqs⟩ := appendToken_reqs ha
      have hs₁ : s₁.reqs = pre ++ [f r] := by
        rw [hreqs, hs, updateReq_append_not_mem hpre, updateReq_single (by simp [hr])]
      exact ih hg' hs₁ (by rw [hf r]; exact hr) hpre

/-! ### Beam-sharing helper lemmas -/

theorem find?_updateReq_map {l : List ReqState} {rid : Nat} {f : ReqState → ReqState}
    (hf : ∀ x, (f x).rid = x.rid) :
    (updateReq rid f l).find? (fun x => x.rid == rid) =
      (l.find? (fun x => x.rid == rid)).map f := by
  induction l with
  | nil => rfl
  | cons a t ih =>
    simp only [updateReq]
    by_cases ha : (a.rid == rid) = true
    · rw [if_pos ha]
      have hfa : ((f a).rid == rid) = true := by
        rw [hf a]
        exact ha
      simp [List.find?, ha, hfa]
    · rw [if_neg ha]
      have ha' : (a.rid == rid) = false := by simpa using ha
      simp only [List.find?, ha']
      exact ih

theorem mem_usedList_of_beamAt {s : ManagerState} {rid bi : Nat} {bm : BeamState} {x : BlockId}
    (h : beamAt s rid bi = some bm) (hx : x ∈ bm.blocks) : x ∈ usedList s := by
  simp only [beamAt, getReq?] at h
  cases hfind : s.reqs.find? (fun r => r.rid == rid) with
  | none =>
    rw [hfind] at h
    simp at h
  | some r =>
    rw [hfind] at h
    simp only [Option.some_bind] at h
    exact mem_reqsBlocks_of (find?_rid_mem hfind) (mem_beamsBlocks_of (List.getElem?_mem h) hx)

theorem refCount_two_le {s : ManagerState} {rid₁ bi₁ rid₂ bi₂ : Nat} {b₁ b₂ : BeamState}
    {x : BlockId} (h₁ : beamAt s rid₁ bi₁ = some b₁) (h₂ : beamAt s rid₂ bi₂ = some b₂)
    (hne : (rid₁, bi₁) ≠ (rid₂, bi₂)) (hx₁ : x ∈ b₁.blocks) (hx₂ : x ∈ b₂.blocks) :
    2 ≤ refCount s x := by
  simp only [beamAt, getReq?] at h₁ h₂
  cases hf₁ : s.reqs.find? (fun r => r.rid == rid₁) with
  | none =>
    rw [hf₁] at h₁
    simp at h₁
  | some r₁ =>
    rw [hf₁] at h₁
    simp only [Option.some_bind] at h₁
    cases hf₂ : s.reqs.find? (fun r => r.rid == rid₂) with
    | none =>
      rw [hf₂] at h₂
      simp at h₂
    | some r₂ =>
      rw [hf₂] at h₂
      simp only [Option.some_bind] at h₂
      have hc₁ : 1 ≤ b₁.blocks.count x := List.count_pos_iff.mpr hx₁
      have hc₂ : 1 ≤ b₂.blocks.count x := List.count_pos_iff.mpr hx₂
      by_cases hr : rid₁ = rid₂
      · subst hr
        rw [hf₁] at hf₂
        have hrr : r₁ = r₂ := by simpa using hf₂
        subst hrr
        have hbi : bi₁ ≠ bi₂ := by
          intro hc
          exact hne (by rw [hc])
        have hbeam := count_beamsBlocks_two hbi h₁ h₂ x
        have hreq := count_reqsBlocks_of_mem (find?_rid_mem hf₁) x
        simp only [reqBlocks] at hreq
        simp only [refCount, usedList]
        omega
      · have hrid₁ := find?_rid_eq hf₁
        have hrid₂ := find?_rid_eq hf₂
        have hrne : r₁ ≠ r₂ := by
          intro hc
          rw [hc, hrid₂] at hrid₁
          exact hr hrid₁.symm
        have hb₁ := count_beamsBlocks_of_getElem? h₁ x
        have hb₂ := count_beamsBlocks_of_getElem? h₂ x
        have hreq := count_reqsBlocks_two (find?_rid_mem hf₁) (find?_rid_mem hf₂) hrne x
        simp only [reqBlocks] at hreq
        simp only [refCount, usedList]
        omega

theorem blocksTokens_set_ne {contents : List (List Token)} {T : BlockId} {val : List Token} :
    ∀ {bl : List BlockId}, T ∉ bl →
      blocksTokens (contents.set T val) bl = blocksTokens contents bl := by
  intro bl
  induction bl with
  | nil => intro _; rfl
  | cons b bs ih =>
    intro h
    simp only [List.mem_cons] at h
    push_neg at h
    simp only [blocksTokens]
    rw [getD_set_ne h.1, ih h.2]

theorem beamTokens_set_ne {contents : List (List Token)} {T : BlockId} {val : List Token}
    {bm : BeamState} (h : T ∉ bm.blocks) :
    beamTokens (contents.set T val) bm = beamTokens contents bm := by
  simp only [beamTokens]
  rw [blocksTokens_set_ne h]

theorem beamTokensAt_congr {s s' : ManagerState} {rid₂ bi₂ : Nat}
    (hbeam : beamAt s' rid₂ bi₂ = beamAt s rid₂ bi₂)
    (hcont : ∀ bm₂, beamAt s rid₂ bi₂ = some bm₂ →
      beamTokens s'.contents bm₂ = beamTokens s.contents bm₂) :
    beamTokensAt s' rid₂ bi₂ = beamTokensAt s rid₂ bi₂ := by
  simp only [beamTokensAt, hbeam]
  cases h : beamAt s rid₂ bi₂ with
  | none => rfl
  | some bm₂ => simp [hcont bm₂ h]

theorem find?_bind_update_ne {l : List ReqState} {rid bi : Nat} (bm' : BeamState)
    {rid₂ bi₂ : Nat} (hne : (rid, bi) ≠ (rid₂, bi₂)) :
    ((updateReq rid (fun x => { x with beams := x.beams.set bi bm' }) l).find?
        (fun x => x.rid == rid₂)).bind (fun r => r.beams[bi₂]?)
      = (l.find? (fun x => x.rid == rid₂)).bind (fun r => r.beams[bi₂]?) := by
  by_cases hr : rid = rid₂
  · subst hr
    have hbi : bi ≠ bi₂ := by
      intro hc
      exact hne (by rw [hc])
    rw [@find?_updateReq_map l rid (fun x => { x with beams := x.beams.set bi bm' })
      (fun _ => rfl)]
    cases hfind : l.find? (fun x => x.rid == rid) with
    | none => rfl
    | some r =>
      simp only [Option.map_some', Option.some_bind]
      exact List.getElem?_set_ne hbi
  · rw [@find?_updateReq_ne l rid rid₂ (fun x => { x with beams := x.beams.set bi bm' })
      (fun _ => rfl) hr]

theorem appendToken_frame {s s' : ManagerState} {rid bi : Nat} {t : Token} {rid₂ bi₂ : Nat}
    (hwf : WF s) (he : appendToken s rid bi t = Except.ok s')
    (hne : (rid, bi) ≠ (rid₂, bi₂)) :
    beamTokensAt s' rid₂ bi₂ = beamTokensAt s rid₂ bi₂ := by
  unfold appendToken at he
  cases hfind : s.reqs.find? (fun r => r.rid == rid) with
  | none =>
    rw [hfind] at he
    exact absurd he (by simp)
  | some r =>
    rw [hfind] at he
    dsimp only at he
    cases hbm : r.beams[bi]? with
    | none =>
      rw [hbm] at he
      exact absurd he (by simp)
    | some bm =>
      rw [hbm] at he
      dsimp only at he
      have hbmAt : beamAt s rid bi = some bm := by
        simp [beamAt, getReq?, hfind, hbm]
      by_cases hroom : bm.len < s.cap * bm.blocks.length
      · rw [if_pos hroom] at he
        cases hlast : bm.blocks.getLast? with
        | none =>
          rw [hlast] at he
          exact absurd he (by simp)
        | some lastB =>
          rw [hlast] at he
          dsimp only at he
          obtain ⟨hdrop, hlmem⟩ := getLast?_decomp hlast
          by_cases hrc : refCount s lastB ≤ 1
          · rw [if_pos hrc] at he
            simp only [Except.ok.injEq] at he
            subst he
            refine beamTokensAt_congr ?_ ?_
            · exact find?_bind_update_ne { bm with len := bm.len + 1 } hne
            · intro bm₂ hbm₂
              refine beamTokens_set_ne ?_
              intro hc
              have := refCount_two_le hbmAt hbm₂ hne hlmem hc
              omega
          · rw [if_neg hrc] at he
            cases hfree : s.freeList with
            | nil =>
              rw [hfree] at he
              exact absurd he (by simp)
            | cons nb rest =>
              rw [hfree] at he
              simp only [Except.ok.injEq] at he
              subst he
              refine beamTokensAt_congr ?_ ?_
              · exact find?_bind_update_ne ⟨bm.blocks.dropLast ++ [nb], bm.len + 1⟩ hne
              · intro bm₂ hbm₂
                refine beamTokens_set_ne ?_
                intro hc
                exact hwf.disj nb (by rw [hfree]; exact List.mem_cons_self nb rest)
                  (mem_usedList_of_beamAt hbm₂ hc)
      · rw [if_neg hroom] at he
        cases hfree : s.freeList with
        | nil =>
          rw [hfree] at he
          exact absurd he (by simp)
        | cons nb rest =>
          rw [hfree] at he
          simp only [Except.ok.injEq] at he
          subst he
          refine beamTokensAt_congr ?_ ?_
          · exact find?_bind_update_ne ⟨bm.blocks ++ [nb], bm.len + 1⟩ hne
          · intro bm₂ hbm₂
            refine beamTokens_set_ne ?_
            intro hc
            exact hwf.disj nb (by rw [hfree]; exact List.mem_cons_self nb rest)
              (mem_usedList_of_beamAt hbm₂ hc)

/-! ### The accounting equation from well-formedness -/

theorem accounting {s : ManagerState} (h : WF s) :
    (usedList s).dedup.length + s.freeList.length = s.total := by
  have hnd : (s.freeList ++ (usedList s).dedup).Nodup := by
    refine List.Nodup.append h.free_nodup (List.nodup_dedup _) ?_
    intro a ha hb
    exact h.disj a ha (List.mem_dedup.mp hb)
  have hperm : List.Perm (s.freeList ++ (usedList s).dedup) (List.range s.total) := by
    rw [List.perm_ext_iff_of_nodup hnd (List.nodup_range s.total)]
    intro a
    constructor
    · intro ha
      rcases List.mem_append.mp ha with ha | ha
      · exact List.mem_range.mpr (h.free_lt a ha)
      · exact List.mem_range.mpr (h.used_lt a (List.mem_dedup.mp ha))
    · intro ha
      rcases h.cover a (List.mem_range.mp ha) with ha' | ha'
      · exact List.mem_append.mpr (Or.inl ha')
      · exact List.mem_append.mpr (Or.inr (List.mem_dedup.mpr ha'))
  have := hperm.length_eq
  simp only [List.length_append, List.length_range] at this
  omega

/-! ### Claim theorems -/

/-- Claim C1: block-pool accounting invariant — for every sequence of
admit/grow/free (and branching, interruption, completion) operations,
after every iteration the number of blocks owned by all active beams
(counting each shared block once) plus the free-block count equals the
total block count fixed at startup. -/
theorem blockPool_accounting_invariant (s : ManagerState) (ops : List Op) (h : WF s) :
    (usedList (run ops s)).dedup.length + (run ops s).freeList.length = (run ops s).total ∧
    (run ops s).total = s.total := by
  obtain ⟨t, _, _, _, _, _, w⟩ := run_spec ops s
  exact ⟨accounting (w h), t⟩

theorem blockPool_accounting_invariant_witness :
    ((usedList (run [Op.accept 7 1 4, Op.grow 7 0 [1, 2, 3], Op.branch 7 0, Op.free 7]
          (mkInit 4 2 SchedulerPolicy.MAX_UTILIZATION))).dedup.length
        + (run [Op.accept 7 1 4, Op.grow 7 0 [1, 2, 3], Op.branch 7 0, Op.free 7]
          (mkInit 4 2 SchedulerPolicy.MAX_UTILIZATION)).freeList.length
      = (run [Op.accept 7 1 4, Op.grow 7 0 [1, 2, 3], Op.branch 7 0, Op.free 7]
          (mkInit 4 2 SchedulerPolicy.MAX_UTILIZATION)).total) ∧
    (run [Op.accept 7 1 4, Op.grow 7 0 [1, 2, 3], Op.branch 7 0, Op.free 7]
        (mkInit 4 2 SchedulerPolicy.MAX_UTILIZATION)).total
      = (mkInit 4 2 SchedulerPolicy.MAX_UTILIZATION).total :=
  blockPool_accounting_invariant (mkInit 4 2 SchedulerPolicy.MAX_UTILIZATION)
    [Op.accept 7 1 4, Op.grow 7 0 [1, 2, 3], Op.branch 7 0, Op.free 7]
    ⟨by decide, by decide, by decide, by decide, by decide, by decide, by decide⟩

/-- Claim C2: under GUARANTEED_NO_EVICT no reachable state has an admitted
request in the PAUSED phase, and an OutOfBlocks result from growSequence is
a fatal internal-consistency failure rather than a pause. -/
theorem gne_admitted_never_paused (s : ManagerState) (ops : List Op)
    (hp : s.policy = SchedulerPolicy.GUARANTEED_NO_EVICT) (h0 : NoPaused s) :
    NoPaused (run ops s) ∧
    (∀ rid bi : Nat, ∀ toks : List Token, s.fatal = false →
      growBeam s rid bi toks = Except.error CacheError.OutOfBlocks →
      (step (Op.grow rid bi toks) s).fatal = true) := by
  refine ⟨run_noPaused hp h0, ?_⟩
  intro rid bi toks hfe hg
  unfold step
  rw [if_neg (by simp [hfe])]
  dsimp only
  unfold growStep
  rw [hg]
  dsimp only
  rw [hp]

theorem gne_admitted_never_paused_witness :
    NoPaused (run [Op.grow 7 0 [9]]
      (run [Op.accept 7 1 2, Op.grow 7 0 [1, 2]]
        (mkInit 1 2 SchedulerPolicy.GUARANTEED_NO_EVICT))) ∧
    ((run [Op.accept 7 1 2, Op.grow 7 0 [1, 2]]
        (mkInit 1 2 SchedulerPolicy.GUARANTEED_NO_EVICT)).fatal = false →
      growBeam (run [Op.accept 7 1 2, Op.grow 7 0 [1, 2]]
          (mkInit 1 2 SchedulerPolicy.GUARANTEED_NO_EVICT)) 7 0 [9]
        = Except.error CacheError.OutOfBlocks →
      (step (Op.grow 7 0 [9]) (run [Op.accept 7 1 2, Op.grow 7 0 [1, 2]]
          (mkInit 1 2 SchedulerPolicy.GUARANTEED_NO_EVICT))).fatal = true) := by
  have h := gne_admitted_never_paused
    (run [Op.accept 7 1 2, Op.grow 7 0 [1, 2]]
      (mkInit 1 2 SchedulerPolicy.GUARANTEED_NO_EVICT))
    [Op.grow 7 0 [9]] (by decide) (by unfold NoPaused; decide)
  exact ⟨h.1, h.2 7 0 [9]⟩

/-- Claim C3: with a pool of 4 blocks of capacity 2 and a single request of
beam width 1 and declared max length 10 (worst case ceil(10/2) = 5 blocks),
canAllocate refuses admission under GUARANTEED_NO_EVICT (no state change),
while under MAX_UTILIZATION the request is admitted into CONTEXT phase and
transitions to PAUSED once the pool is exhausted. -/
theorem worstCase_admission_scenario :
    blocksNeeded 2 10 = 5 ∧
    worstCaseBlocks 2 1 10 = 5 ∧
    canAllocate (mkInit 4 2 SchedulerPolicy.GUARANTEED_NO_EVICT) 1 10 = false ∧
    acceptRequest (mkInit 4 2 SchedulerPolicy.GUARANTEED_NO_EVICT) 7 1 10
      = mkInit 4 2 SchedulerPolicy.GUARANTEED_NO_EVICT ∧
    canAllocate (mkInit 4 2 SchedulerPolicy.MAX_UTILIZATION) 1 10 = true ∧
    (getReq? (acceptRequest (mkInit 4 2 SchedulerPolicy.MAX_UTILIZATION) 7 1 10) 7).map
        (fun r => r.phase) = some RequestPhase.CONTEXT ∧
    (getReq? (run (List.replicate 9 (Op.grow 7 0 [5]))
        (acceptRequest (mkInit 4 2 SchedulerPolicy.MAX_UTILIZATION) 7 1 10)) 7).map
        (fun r => r.phase) = some RequestPhase.PAUSED := by
  exact ⟨by decide, by decide, by decide, by decide, by decide, by decide, by decide⟩

/-- Claim C4: admitting a fresh request, growing it, and freeing it restores
the pool's free-block count to its pre-admission value, and free(request) is
idempotent. -/
theorem roundTrip_free_restores_freeCount (s s₂ : ManagerState) (rid bw ml bi : Nat)
    (toks : List Token) (h : WF s) (hfresh : rid ∉ activeIds s)
    (hca : canAllocate s bw ml = true)
    (hgrow : growBeam (acceptRequest s rid bw ml) rid bi toks = Except.ok s₂) :
    (freeRequest s₂ rid).freeList.length = s.freeList.length ∧
    (∀ s' : ManagerState, ∀ rid' : Nat,
      freeRequest (freeRequest s' rid') rid' = freeRequest s' rid') := by
  refine ⟨?_, fun s' rid' => freeRequest_idem s' rid'⟩
  have hs₁reqs : (acceptRequest s rid bw ml).reqs = s.reqs ++
      [(⟨rid, bw, ml, List.replicate bw ⟨[], 0⟩, RequestPhase.CONTEXT⟩ : ReqState)] := by
    unfold acceptRequest
    rw [if_neg hfresh, if_pos hca]
  obtain ⟨r₂, hs₂reqs, hr₂⟩ := growBeam_reqs_shape hgrow hs₁reqs rfl
    (by simpa [activeIds] using hfresh)
  obtain ⟨ta, _, _, _, _, _, _, _, wa⟩ := acceptRequest_spec s rid bw ml
  obtain ⟨tg, _, _, _, _, _, _, wg⟩ := growBeam_ok hgrow
  obtain ⟨tf, _, _, _, _, _, _, wfr⟩ :=
    releaseRequest_spec s₂ rid clearBeams (fun _ => rfl) (fun x => reqBlocks_clearBeams x)
  have hWs₂ : WF s₂ := wg (wa h)
  have hWfree : WF (freeRequest s₂ rid) := wfr hWs₂
  have hfind₂ : s₂.reqs.find? (fun x => x.rid == rid) = some r₂ := by
    rw [hs₂reqs,
      find?_append_none (find?_eq_none_of_not_mem (by simpa [activeIds] using hfresh))]
    simp [List.find?, hr₂]
  have hreqs_free : (freeRequest s₂ rid).reqs = s.reqs ++ [clearBeams r₂] := by
    unfold freeRequest releaseRequest
    rw [hfind₂]
    dsimp only
    rw [hs₂reqs, updateReq_append_not_mem (by simpa [activeIds] using hfresh),
      updateReq_single (by simp [hr₂])]
  have hused : usedList (freeRequest s₂ rid) = usedList s := by
    simp only [usedList]
    rw [hreqs_free, reqsBlocks_append]
    simp [reqsBlocks, reqBlocks_clearBeams]
  have hA := accounting h
  have hB := accounting hWfree
  rw [hused] at hB
  have htot : (freeRequest s₂ rid).total = s.total := tf.trans (tg.trans ta)
  rw [htot] at hB
  omega

theorem roundTrip_free_restores_freeCount_witness :
    (freeRequest
        (match growBeam (acceptRequest (mkInit 4 2 SchedulerPolicy.MAX_UTILIZATION) 7 1 6)
            7 0 [1, 2, 3, 4, 5, 6] with
          | Except.ok x => x
          | Except.error _ => mkInit 0 0 SchedulerPolicy.MAX_UTILIZATION) 7).freeList.length
      = (mkInit 4 2 SchedulerPolicy.MAX_UTILIZATION).freeList.length ∧
    freeRequest (freeRequest (mkInit 4 2 SchedulerPolicy.MAX_UTILIZATION) 9) 9
      = freeRequest (mkInit 4 2 SchedulerPolicy.MAX_UTILIZATION) 9 := by
  have h := roundTrip_free_restores_freeCount
    (mkInit 4 2 SchedulerPolicy.MAX_UTILIZATION)
    (match growBeam (acceptRequest (mkInit 4 2 SchedulerPolicy.MAX_UTILIZATION) 7 1 6)
        7 0 [1, 2, 3, 4, 5, 6] with
      | Except.ok x => x
      | Except.error _ => mkInit 0 0 SchedulerPolicy.MAX_UTILIZATION)
    7 1 6 0 [1, 2, 3, 4, 5, 6]
    ⟨by decide, by decide, by decide, by decide, by decide, by decide, by decide⟩
    (by decide) (by decide) (by rfl)
  exact ⟨h.1, h.2 (mkInit 4 2 SchedulerPolicy.MAX_UTILIZATION) 9⟩

/-- Claim C5: after branchBeam the destination beam references exactly the
source beam's blocks, each with reference count incremented by 1, and any
subsequent append by one beam (copy-on-divergence) leaves every other
beam's already-generated tokens unchanged. -/
theorem branchBeam_sharing_and_frame (s : ManagerState) (rid src : Nat) (r : ReqState)
    (bm : BeamState) (hwf : WF s) (hfind : getReq? s rid = some r)
    (hbm : r.beams[src]? = some bm) :
    beamAt (branchBeam s rid src) rid r.beams.length = some bm ∧
    (∀ blk ∈ bm.blocks, refCount (branchBeam s rid src) blk = refCount s blk + 1) ∧
    (∀ s₂ s₃ : ManagerState, ∀ rid₁ bi₁ t rid₂ bi₂ : Nat, WF s₂ →
      appendToken s₂ rid₁ bi₁ t = Except.ok s₃ → (rid₁, bi₁) ≠ (rid₂, bi₂) →
      beamTokensAt s₃ rid₂ bi₂ = beamTokensAt s₂ rid₂ bi₂) := by
  have hfind' : s.reqs.find? (fun x => x.rid == rid) = some r := hfind
  refine ⟨?_, ?_, fun s₂ s₃ rid₁ bi₁ t rid₂ bi₂ hw he hne => appendToken_frame hw he hne⟩
  · unfold branchBeam
    rw [hfind']
    dsimp only
    rw [hbm]
    dsimp only
    simp only [beamAt, getReq?]
    rw [@find?_updateReq_map s.reqs rid (fun x => { x with beams := x.beams ++ [bm] })
      (fun _ => rfl), hfind']
    simp only [Option.map_some', Option.some_bind]
    exact List.getElem?_concat_length r.beams bm
  · intro blk hblk
    unfold branchBeam
    rw [hfind']
    dsimp only
    rw [hbm]
    dsimp only
    obtain ⟨u, v, hu1, hu2⟩ := updateReq_decomp hfind'
      (fun x => { x with beams := x.beams ++ [bm] })
    have hfr : reqBlocks ((fun x => ({ x with beams := x.beams ++ [bm] } : ReqState)) r) =
        beamsBlocks r.beams ++ (bm.blocks ++ []) := by
      show reqBlocks ({ r with beams := r.beams ++ [bm] }) = _
      simp only [reqBlocks]
      rw [beamsBlocks_append]
      simp [beamsBlocks]
    have hone : bm.blocks.count blk = 1 :=
      List.count_eq_one_of_mem
        (hwf.beam_nodup r (find?_rid_mem hfind') bm (List.getElem?_mem hbm)) hblk
    simp only [refCount, usedList]
    rw [hu2, hu1, hfr]
    simp only [reqBlocks, List.count_append, List.count_nil]
    omega

theorem branchBeam_sharing_and_frame_witness :
    beamAt (branchBeam (run [Op.accept 7 1 6, Op.grow 7 0 [1, 2, 3]]
        (mkInit 4 2 SchedulerPolicy.MAX_UTILIZATION)) 7 0) 7 1
      = some ⟨[0, 1], 3⟩ ∧
    (∀ blk ∈ (⟨[0, 1], 3⟩ : BeamState).blocks,
      refCount (branchBeam (run [Op.accept 7 1 6, Op.grow 7 0 [1, 2, 3]]
          (mkInit 4 2 SchedulerPolicy.MAX_UTILIZATION)) 7 0) blk
        = refCount (run [Op.accept 7 1 6, Op.grow 7 0 [1, 2, 3]]
            (mkInit 4 2 SchedulerPolicy.MAX_UTILIZATION)) blk + 1) ∧
    (∀ s₂ s₃ : ManagerState, ∀ rid₁ bi₁ t rid₂ bi₂ : Nat, WF s₂ →
      appendToken s₂ rid₁ bi₁ t = Except.ok s₃ → (rid₁, bi₁) ≠ (rid₂, bi₂) →
      beamTokensAt s₃ rid₂ bi₂ = beamTokensAt s₂ rid₂ bi₂) := by
  have h := branchBeam_sharing_and_frame
    (run [Op.accept 7 1 6, Op.grow 7 0 [1, 2, 3]]
      (mkInit 4 2 SchedulerPolicy.MAX_UTILIZATION)) 7 0
    ⟨7, 1, 6, [⟨[0, 1], 3⟩], RequestPhase.GENERATION⟩ ⟨[0, 1], 3⟩
    ⟨by decide, by decide, by decide, by decide, by decide, by decide, by decide⟩
    (by decide) (by decide)
  exact h

/-- Claim C6: an incoming request whose ID matches a currently active
request is rejected with no state change, and an active ID can only leave
the active set after a final response (is-final = true) has been delivered
for it. -/
theorem duplicate_id_rejected (s : ManagerState) (rid bw ml : Nat) (ops : List Op)
    (hdup : rid ∈ activeIds s) :
    acceptRequest s rid bw ml = s ∧
    (rid ∉ activeIds (run ops s) →
      ∃ resp ∈ (run ops s).responses, resp.rid = rid ∧ resp.isFinal = true) := by
  refine ⟨?_, ?_⟩
  · unfold acceptRequest
    rw [if_pos hdup]
  · intro h
    obtain ⟨_, _, _, _, _, i6, _⟩ := run_spec ops s
    exact i6 rid hdup h

theorem duplicate_id_rejected_witness :
    acceptRequest (acceptRequest (mkInit 2 2 SchedulerPolicy.MAX_UTILIZATION) 7 1 2) 7 1 2
      = acceptRequest (mkInit 2 2 SchedulerPolicy.MAX_UTILIZATION) 7 1 2 ∧
    (7 ∉ activeIds (run [Op.cancel 7]
        (acceptRequest (mkInit 2 2 SchedulerPolicy.MAX_UTILIZATION) 7 1 2)) →
      ∃ resp ∈ (run [Op.cancel 7]
          (acceptRequest (mkInit 2 2 SchedulerPolicy.MAX_UTILIZATION) 7 1 2)).responses,
        resp.rid = 7 ∧ resp.isFinal = true) :=
  duplicate_id_rejected (acceptRequest (mkInit 2 2 SchedulerPolicy.MAX_UTILIZATION) 7 1 2)
    7 1 2 [Op.cancel 7] (by decide)

/-- Claim C7: for every call of the output-delivery callback, a non-empty
error message forces the is-final flag to true. -/
theorem errMsg_implies_final (s : ManagerState) (ops : List Op) (h : ErrImpliesFinal s) :
    ErrImpliesFinal (run ops s) := by
  obtain ⟨_, _, _, _, rn, _, _⟩ := run_spec ops s
  intro resp hresp hne
  rcases rn resp hresp with h' | h' | h'
  · exact h resp h' hne
  · exact absurd h' hne
  · exact h'

theorem errMsg_implies_final_witness :
    ErrImpliesFinal (run [Op.accept 7 1 2, Op.grow 7 0 [1, 2], Op.grow 7 0 [9]]
      (mkInit 1 2 SchedulerPolicy.GUARANTEED_NO_EVICT)) :=
  errMsg_implies_final (mkInit 1 2 SchedulerPolicy.GUARANTEED_NO_EVICT)
    [Op.accept 7 1 2, Op.grow 7 0 [1, 2], Op.grow 7 0 [9]]
    (by intro resp hresp hne; simp [mkInit] at hresp)

theorem cancel_unknown_noop (s : ManagerState) (rid : Nat) (h : rid ∉ activeIds s) :
    step (Op.cancel rid) s = s := by
  unfold step
  by_cases hf : s.fatal = true
  · rw [if_pos hf]
  · rw [if_neg hf]
    dsimp only
    obtain ⟨_, _, _, _, _, _, _, _, nf, _⟩ := retireRequest_spec s rid (fun _ => []) ""
    exact nf h

/-- Claim C8: a stop-signal for an unknown, already-completed or
already-cancelled request ID is a no-op — no error, no state change — and
cancellation is idempotent. -/
theorem idempotent_cancellation (s : ManagerState) (rid : Nat) :
    (rid ∉ activeIds s → step (Op.cancel rid) s = s) ∧
    (WF s → step (Op.cancel rid) (step (Op.cancel rid) s) = step (Op.cancel rid) s) := by
  refine ⟨fun h => cancel_unknown_noop s rid h, ?_⟩
  intro hwf
  by_cases hf : s.fatal = true
  · have h1 : step (Op.cancel rid) s = s := by
      unfold step
      rw [if_pos hf]
    rw [h1]
    exact h1
  · by_cases hin : rid ∈ activeIds s
    · have h1 : rid ∉ activeIds (step (Op.cancel rid) s) := by
        unfold step
        rw [if_neg hf]
        dsimp only
        unfold cancelRequest retireRequest
        cases hfind : s.reqs.find? (fun x => x.rid == rid) with
        | none =>
          exfalso
          obtain ⟨x, hx, he⟩ := List.mem_map.mp hin
          have hsome : (s.reqs.find? (fun y => y.rid == rid)).isSome :=
            List.find?_isSome.mpr ⟨x, hx, by simp [he]⟩
          rw [hfind] at hsome
          simp at hsome
        | some r =>
          dsimp only
          simp only [activeIds]
          exact not_mem_rid_removeReq hwf.ids_nodup
      rw [cancel_unknown_noop (step (Op.cancel rid) s) rid h1]
    · rw [cancel_unknown_noop s rid hin]
      exact cancel_unknown_noop s rid hin

theorem idempotent_cancellation_witness :
    step (Op.cancel 9) (acceptRequest (mkInit 2 2 SchedulerPolicy.MAX_UTILIZATION) 7 1 2)
      = acceptRequest (mkInit 2 2 SchedulerPolicy.MAX_UTILIZATION) 7 1 2 ∧
    step (Op.cancel 7) (step (Op.cancel 7)
        (acceptRequest (mkInit 2 2 SchedulerPolicy.MAX_UTILIZATION) 7 1 2))
      = step (Op.cancel 7) (acceptRequest (mkInit 2 2 SchedulerPolicy.MAX_UTILIZATION) 7 1 2) :=
  ⟨(idempotent_cancellation (acceptRequest (mkInit 2 2 SchedulerPolicy.MAX_UTILIZATION) 7 1 2)
      9).1 (by decide),
    (idempotent_cancellation (acceptRequest (mkInit 2 2 SchedulerPolicy.MAX_UTILIZATION) 7 1 2)
      7).2 ⟨by decide, by decide, by decide, by decide, by decide, by decide, by decide⟩⟩

/-! ### Serialization round-trip lemmas -/

theorem decInt32_encInt32 (v : Int) (h1 : -2147483648 ≤ v) (h2 : v < 2147483648) :
    decInt32 ((v % 4294967296).toNat % 256) ((v % 4294967296).toNat / 256 % 256)
      ((v % 4294967296).toNat / 65536 % 256) ((v % 4294967296).toNat / 16777216 % 256) = v := by
  simp only [decInt32, dec32]
  split <;> omega

theorem readInt32_encInt32 (v : Int) (rest : List Nat) (h1 : -2147483648 ≤ v)
    (h2 : v < 2147483648) : readInt32 (encInt32 v ++ rest) = some (v, rest) := by
  simp only [encInt32, enc32, List.cons_append, List.nil_append, readInt32]
  rw [decInt32_encInt32 v h1 h2]

theorem encInt32_length (v : Int) : (encInt32 v).length = 4 := rfl

theorem readInt32_enc32 (n : Nat) (rest : List Nat) (h : n < 2147483648) :
    readInt32 (enc32 n ++ rest) = some ((n : Int), rest) := by
  have he : encInt32 (n : Int) = enc32 n := by
    simp only [encInt32]
    congr 1
    omega
  rw [← he]
  exact readInt32_encInt32 (n : Int) rest (by omega) (by omega)

theorem ofCode_code (t : NvDataType) : NvDataType.ofCode t.code = some t := by
  cases t <;> rfl

theorem code_lt (t : NvDataType) : t.code < 2147483648 := by
  cases t <;> simp [NvDataType.code]

theorem readGemmDims_encode (d : GemmDims) (rest : List Nat)
    (h1 : -2147483648 ≤ d.minM ∧ d.minM < 2147483648)
    (h2 : -2147483648 ≤ d.maxM ∧ d.maxM < 2147483648)
    (h3 : -2147483648 ≤ d.n ∧ d.n < 2147483648)
    (h4 : -2147483648 ≤ d.k ∧ d.k < 2147483648) :
    readGemmDims (d.encode ++ rest) = some (d, rest) := by
  unfold GemmDims.encode readGemmDims
  simp only [List.append_assoc]
  rw [readInt32_encInt32 d.minM _ h1.1 h1.2]
  dsimp only
  rw [readInt32_encInt32 d.maxM _ h2.1 h2.2]
  dsimp only
  rw [readInt32_encInt32 d.n _ h3.1 h3.2]
  dsimp only
  rw [readInt32_encInt32 d.k _ h4.1 h4.2]

theorem readTactics_serialized (ts : List Int) (rest : List Nat)
    (h : ∀ t ∈ ts, -2147483648 ≤ t ∧ t < 2147483648) :
    readTactics ts.length ((ts.map encInt32).flatten ++ rest) = some (ts, rest) := by
  induction ts with
  | nil => simp [readTactics]
  | cons t ts' ih =>
    have ht := h t (List.mem_cons_self t ts')
    simp only [List.map_cons, List.flatten_cons, List.length_cons, readTactics,
      List.append_assoc]
    rw [readInt32_encInt32 t _ ht.1 ht.2]
    dsimp only
    rw [ih (fun x hx => h x (List.mem_cons_of_mem t hx))]

theorem flatten_encInt32_length (ts : List Int) :
    ((ts.map encInt32).flatten).length = 4 * ts.length := by
  induction ts with
  | nil => simp
  | cons t ts' ih =>
    simp only [List.map_cons, List.flatten_cons, List.length_append, List.length_cons, ih,
      encInt32_length]
    omega

theorem readProfiler_serialize (p : ProfilerData) (rest : List Nat)
    (hlen : p.tactics.length < 2147483648)
    (ht : ∀ t ∈ p.tactics, -2147483648 ≤ t ∧ t < 2147483648) :
    readProfiler (p.serialize ++ rest) = some (p, rest) := by
  unfold ProfilerData.serialize readProfiler
  simp only [enc32, List.cons_append, List.nil_append, List.append_assoc]
  have hdec : dec32 (p.tactics.length % 256) (p.tactics.length / 256 % 256)
      (p.tactics.length / 65536 % 256) (p.tactics.length / 16777216 % 256)
      = p.tactics.length := by
    unfold dec32
    omega
  rw [hdec, readTactics_serialized p.tactics rest ht]

/-! ### Claim theorems for the runtime components -/

/-- Claim C9: WeightOnlyQuantMatmulPlugin serialization round-trip —
serialize writes exactly getSerializationSize() bytes (mType, then
mWeightTypeId, then mDims, then the profiler's tactics), and the
deserializing constructor applied to that buffer with that length recovers
the same mType, mWeightTypeId and mDims and consumes exactly the whole
buffer (its end-of-buffer check succeeds). -/
theorem woq_plugin_serialization_roundTrip (p : WeightOnlyQuantMatmulPlugin)
    (hinit : p.mType = NvDataType.kHALF ∧ (p.mWeightTypeId = 1 ∨ p.mWeightTypeId = 2))
    (h1 : -2147483648 ≤ p.mDims.minM ∧ p.mDims.minM < 2147483648)
    (h2 : -2147483648 ≤ p.mDims.maxM ∧ p.mDims.maxM < 2147483648)
    (h3 : -2147483648 ≤ p.mDims.n ∧ p.mDims.n < 2147483648)
    (h4 : -2147483648 ≤ p.mDims.k ∧ p.mDims.k < 2147483648)
    (hlen : p.profiler.tactics.length < 2147483648)
    (ht : ∀ t ∈ p.profiler.tactics, -2147483648 ≤ t ∧ t < 2147483648) :
    p.serialize.length = p.getSerializationSize ∧
    deserializePlugin p.serialize p.getSerializationSize = some p := by
  have hwt : -2147483648 ≤ p.mWeightTypeId ∧ p.mWeightTypeId < 2147483648 := by
    rcases hinit.2 with h | h <;> rw [h] <;> exact ⟨by omega, by omega⟩
  have hsize : p.serialize.length = p.getSerializationSize := by
    simp only [WeightOnlyQuantMatmulPlugin.serialize,
      WeightOnlyQuantMatmulPlugin.getSerializationSize, ProfilerData.serialize,
      ProfilerData.serializationSize, GemmDims.encode, List.length_append,
      flatten_encInt32_length, encInt32_length]
    simp [enc32]
  refine ⟨hsize, ?_⟩
  have hshape : p.serialize = enc32 p.mType.code ++ (encInt32 p.mWeightTypeId ++
      (GemmDims.encode p.mDims ++ (ProfilerData.serialize p.profiler ++ []))) := by
    simp [WeightOnlyQuantMatmulPlugin.serialize]
  unfold deserializePlugin
  rw [hshape, readInt32_enc32 p.mType.code _ (code_lt p.mType)]
  dsimp only
  rw [Int.toNat_ofNat, ofCode_code p.mType]
  dsimp only
  rw [readInt32_encInt32 p.mWeightTypeId _ hwt.1 hwt.2]
  dsimp only
  rw [readGemmDims_encode p.mDims _ h1 h2 h3 h4]
  dsimp only
  rw [readProfiler_serialize p.profiler [] hlen ht]
  have hcheck : initCheck p.mType p.mWeightTypeId = true := by
    simp [initCheck, hinit.1, hinit.2]
  rw [if_pos hcheck]
  dsimp only
  rw [if_pos (by rw [← hshape]; simpa using hsize)]

theorem woq_plugin_serialization_roundTrip_witness :
    (WeightOnlyQuantMatmulPlugin.serialize
        ⟨NvDataType.kHALF, 1, ⟨1, 8, 128, 256⟩, ⟨[3, -2]⟩⟩).length
      = WeightOnlyQuantMatmulPlugin.getSerializationSize
        ⟨NvDataType.kHALF, 1, ⟨1, 8, 128, 256⟩, ⟨[3, -2]⟩⟩ ∧
    deserializePlugin
        (WeightOnlyQuantMatmulPlugin.serialize
          ⟨NvDataType.kHALF, 1, ⟨1, 8, 128, 256⟩, ⟨[3, -2]⟩⟩)
        (WeightOnlyQuantMatmulPlugin.getSerializationSize
          ⟨NvDataType.kHALF, 1, ⟨1, 8, 128, 256⟩, ⟨[3, -2]⟩⟩)
      = some ⟨NvDataType.kHALF, 1, ⟨1, 8, 128, 256⟩, ⟨[3, -2]⟩⟩ :=
  woq_plugin_serialization_roundTrip ⟨NvDataType.kHALF, 1, ⟨1, 8, 128, 256⟩, ⟨[3, -2]⟩⟩
    ⟨rfl, Or.inl rfl⟩ (by decide) (by decide) (by decide) (by decide) (by decide) (by decide)

/-- Claim C10: WorldConfig rank decomposition — with positive tensor
parallelism, getPipelineParallelRank() * getTensorParallelism() +
getTensorParallelRank() = getRank() and getSize() = getTensorParallelism()
* getPipelineParallelism(), so the (pipeline-rank, tensor-rank) pair
determines the rank uniquely. -/
theorem worldConfig_rank_decomposition (c : WorldConfig)
    (h : 0 < c.mTensorParallelism) :
    c.getPipelineParallelRank * c.getTensorParallelism + c.getTensorParallelRank
      = c.getRank ∧
    c.getSize = c.getTensorParallelism * c.getPipelineParallelism ∧
    (∀ c' : WorldConfig, c'.getTensorParallelism = c.getTensorParallelism →
      c'.getPipelineParallelRank = c.getPipelineParallelRank →
      c'.getTensorParallelRank = c.getTensorParallelRank →
      c'.getRank = c.getRank) := by
  have key : ∀ d : WorldConfig,
      d.getPipelineParallelRank * d.getTensorParallelism + d.getTensorParallelRank
        = d.getRank := by
    intro d
    simp only [WorldConfig.getPipelineParallelRank, WorldConfig.getTensorParallelism,
      WorldConfig.getTensorParallelRank, WorldConfig.getRank]
    rw [Int.mul_comm]
    exact Int.tdiv_add_tmod d.mRank d.mTensorParallelism
  refine ⟨key c, rfl, ?_⟩
  intro c' h1 h2 h3
  have k1 := key c'
  have k2 := key c
  rw [h1, h2, h3] at k1
  exact k1.symm.trans k2

theorem worldConfig_rank_decomposition_witness :
    WorldConfig.getPipelineParallelRank ⟨2, 3, 5, 8⟩ * WorldConfig.getTensorParallelism ⟨2, 3, 5, 8⟩
        + WorldConfig.getTensorParallelRank ⟨2, 3, 5, 8⟩ = WorldConfig.getRank ⟨2, 3, 5, 8⟩ ∧
    WorldConfig.getSize ⟨2, 3, 5, 8⟩
      = WorldConfig.getTensorParallelism ⟨2, 3, 5, 8⟩
        * WorldConfig.getPipelineParallelism ⟨2, 3, 5, 8⟩ ∧
    (∀ c' : WorldConfig, c'.getTensorParallelism = WorldConfig.getTensorParallelism ⟨2, 3, 5, 8⟩ →
      c'.getPipelineParallelRank = WorldConfig.getPipelineParallelRank ⟨2, 3, 5, 8⟩ →
      c'.getTensorParallelRank = WorldConfig.getTensorParallelRank ⟨2, 3, 5, 8⟩ →
      c'.getRank = WorldConfig.getRank ⟨2, 3, 5, 8⟩) :=
  worldConfig_rank_decomposition ⟨2, 3, 5, 8⟩ (by decide)

end TrtLlm
